import Mathlib

/-!
Verification of the memory-profiler tracking core (allocation tracker and
range map) against its natural-language specification.  The Rust source in
src/memapi/src/memorytracking.rs and src/memapi/src/rangemap.rs is shallowly
embedded below: hash maps become association lists with map semantics,
machine integers become Nat, and each Rust method becomes a pure Lean
function on the corresponding state structure.
-/

set_option maxHeartbeats 1000000

/-- Association-list lookup, modelling HashMap get: returns the value stored
at the first occurrence of the key. -/
def alLookup {κ α : Type} [DecidableEq κ] (k : κ) : List (κ × α) → Option α
  | [] => none
  | (k2, v2) :: rest => if k = k2 then some v2 else alLookup k rest

/-- Association-list insert, modelling HashMap insert: replaces the value at
an existing key in place, otherwise appends the new binding. -/
def alInsert {κ α : Type} [DecidableEq κ] (k : κ) (v : α) : List (κ × α) → List (κ × α)
  | [] => [(k, v)]
  | (k2, v2) :: rest => if k = k2 then (k, v) :: rest else (k2, v2) :: alInsert k v rest

/-- Association-list removal, modelling HashMap remove: returns the removed
value (if any) together with the remaining list. -/
def alRemove {κ α : Type} [DecidableEq κ] (k : κ) : List (κ × α) → Option α × List (κ × α)
  | [] => (none, [])
  | (k2, v2) :: rest =>
    if k = k2 then (some v2, rest)
    else
      let r := alRemove k rest
      (r.1, (k2, v2) :: r.2)

/-- A call site: module name plus function name
(memorytracking.rs, struct CallSite). -/
structure CallSite where
  module_name : String
  function_name : String
deriving DecidableEq, Repr

/-- Display rendering of a call site as module:function
(memorytracking.rs, impl Display for CallSite). -/
def CallSite.display (c : CallSite) : String :=
  c.module_name ++ ":" ++ c.function_name

/-- A call stack: a sequence of call-site identifiers, outermost first
(memorytracking.rs, struct Callstack). -/
structure Callstack where
  calls : List Nat
deriving DecidableEq, Repr

/-- Callstack::new. -/
def Callstack.new : Callstack := ⟨[]⟩

/-- Callstack::start_call pushes an id. -/
def Callstack.start_call (cs : Callstack) (function_id : Nat) : Callstack :=
  ⟨cs.calls ++ [function_id]⟩

/-- Callstack::as_string: the sentinel for an empty stack, otherwise the
display strings of the resolved call sites joined with semicolons.  The
source unwraps the reverse-map lookup; missing ids are modelled by a
default empty call site (the claims only evaluate this on present ids). -/
def Callstack.as_string (cs : Callstack) (id_to_callsite : List (Nat × CallSite)) : String :=
  if cs.calls.isEmpty then "[No Python stack]"
  else String.intercalate ";"
    (cs.calls.map (fun id => ((alLookup id id_to_callsite).getD ⟨"", ""⟩).display))

/-- The call-site registry (memorytracking.rs, struct CallSites). -/
structure CallSites where
  max_id : Nat
  callsite_to_id : List (CallSite × Nat)
deriving Repr

/-- CallSites::new. -/
def CallSites.new : CallSites := ⟨0, []⟩

/-- CallSites::get_or_insert_id: returns the existing id for an equal call
site, otherwise allocates the next id. -/
def CallSites.get_or_insert_id (cs : CallSites) (c : CallSite) : Nat × CallSites :=
  match alLookup c cs.callsite_to_id with
  | some id => (id, cs)
  | none => (cs.max_id, ⟨cs.max_id + 1, cs.callsite_to_id ++ [(c, cs.max_id)]⟩)

/-- CallSites::get_reverse_map: the inverse mapping from ids to call sites. -/
def CallSites.get_reverse_map (cs : CallSites) : List (Nat × CallSite) :=
  cs.callsite_to_id.foldl (fun m p => alInsert p.2 p.1 m) []

/-- A recorded allocation: captured call stack plus size in bytes
(memorytracking.rs, struct Allocation). -/
structure Allocation where
  callstack : Callstack
  size : Nat
deriving DecidableEq, Repr

/-- The allocation tracker state (memorytracking.rs, struct
AllocationTracker).  The persistent hash maps are modelled as association
lists with map semantics. -/
structure AllocationTracker where
  current_allocations : List (Nat × Allocation)
  peak_allocations : List (Nat × Allocation)
  current_allocated_bytes : Nat
  peak_allocated_bytes : Nat
  call_sites : CallSites

/-- AllocationTracker::new. -/
def AllocationTracker.new : AllocationTracker :=
  ⟨[], [], 0, 0, CallSites.new⟩

/-- AllocationTracker::add_allocation: insert the record, add its size to
the running total, and snapshot on a new peak. -/
def AllocationTracker.add_allocation (t : AllocationTracker)
    (address size : Nat) (callstack : Callstack) : AllocationTracker :=
  let alloc : Allocation := ⟨callstack, size⟩
  let current := alInsert address alloc t.current_allocations
  let bytes := t.current_allocated_bytes + size
  if bytes > t.peak_allocated_bytes then
    { t with current_allocations := current, current_allocated_bytes := bytes,
             peak_allocated_bytes := bytes, peak_allocations := current }
  else
    { t with current_allocations := current, current_allocated_bytes := bytes }

/-- AllocationTracker::free_allocation: remove the record if present and
subtract its size, clamped at zero. -/
def AllocationTracker.free_allocation (t : AllocationTracker)
    (address : Nat) : AllocationTracker :=
  match alRemove address t.current_allocations with
  | (none, _) => t
  | (some removed, rest) =>
    if removed.size > t.current_allocated_bytes then
      { t with current_allocations := rest, current_allocated_bytes := 0 }
    else
      { t with current_allocations := rest,
               current_allocated_bytes := t.current_allocated_bytes - removed.size }

/-- Sum of the size fields of the allocation records in a map. -/
def sumSizes (l : List (Nat × Allocation)) : Nat :=
  (l.map (fun p => p.2.size)).sum

/-- One tracker operation: an allocation (with its captured call stack) or a
free. -/
inductive TrackerOp where
  | add (address size : Nat) (callstack : Callstack)
  | free (address : Nat)

/-- Apply one tracker operation. -/
def applyTrackerOp (t : AllocationTracker) : TrackerOp → AllocationTracker
  | TrackerOp.add a s cs => t.add_allocation a s cs
  | TrackerOp.free a => t.free_allocation a

/-- Run a sequence of tracker operations. -/
def runTracker (t : AllocationTracker) (ops : List TrackerOp) : AllocationTracker :=
  ops.foldl applyTrackerOp t

/-- Boolean guard: every add in the sequence targets an address that is not
currently present in the tracker (no in-place overwrite ever occurs). -/
def noDupAddsB : AllocationTracker → List TrackerOp → Bool
  | _, [] => true
  | t, TrackerOp.add a s cs :: rest =>
    (alLookup a t.current_allocations == none)
      && noDupAddsB (t.add_allocation a s cs) rest
  | t, TrackerOp.free a :: rest => noDupAddsB (t.free_allocation a) rest

/-- A half-open memory range (rangemap.rs, struct Range).  The source field
named end is a Lean keyword, so it is called stop here. -/
structure Range where
  start : Nat
  stop : Nat
deriving DecidableEq, Repr

/-- Range::new builds the half-open range of the given start and length.
The source asserts a positive length; every caller below guards it. -/
def Range.new (start length : Nat) : Range :=
  ⟨start, start + length⟩

/-- Range::intersection of two ranges, none when they do not overlap. -/
def Range.intersection (r other : Range) : Option Range :=
  let max_start := max r.start other.start
  let min_end := min r.stop other.stop
  if min_end ≤ max_start then none
  else some ⟨max_start, min_end⟩

/-- Range::size, the byte length of a range. -/
def Range.size (r : Range) : Nat := r.stop - r.start

/-- Size of the intersection of two ranges, zero when they do not overlap. -/
def interSize (r w : Range) : Nat := ((r.intersection w).map Range.size).getD 0

/-- The interval-list range map (rangemap.rs, struct RangeMap). -/
structure RangeMap (V : Type) where
  ranges : List (Range × V)
deriving DecidableEq, Repr

/-- RangeMap::new. -/
def RangeMap.new {V : Type} : RangeMap V := ⟨[]⟩

/-- RangeMap::add: no-op on non-positive length, otherwise append the new
tagged range. -/
def RangeMap.add {V : Type} (m : RangeMap V) (start length : Nat) (value : V) : RangeMap V :=
  if length ≤ 0 then m
  else ⟨m.ranges ++ [(Range.new start length, value)]⟩

/-- RangeMap::size: total bytes over all stored ranges. -/
def RangeMap.size {V : Type} (m : RangeMap V) : Nat :=
  (m.ranges.map (fun p => p.1.size)).sum

/-- What RangeMap::remove keeps of one stored interval: the four-way match
of the source (total overlap, chunk from start, chunk from end, chunk from
the middle, no overlap). -/
def removeFrag {V : Type} (rmv : Range) (p : Range × V) : List (Range × V) :=
  match p.1.intersection rmv with
  | some i =>
    if i.start = p.1.start ∧ i.stop = p.1.stop then []
    else if i.start = p.1.start ∧ i.stop < p.1.stop then
      [((⟨i.stop, p.1.stop⟩ : Range), p.2)]
    else if p.1.start < i.start ∧ i.stop = p.1.stop then
      [((⟨p.1.start, i.start⟩ : Range), p.2)]
    else
      [((⟨p.1.start, i.start⟩ : Range), p.2), ((⟨i.stop, p.1.stop⟩ : Range), p.2)]
  | none => [p]

/-- RangeMap::remove: rewrite every stored interval by its overlap case and
return the new map together with the number of bytes removed (old total
size minus new total size). -/
def RangeMap.remove {V : Type} (m : RangeMap V) (start length : Nat) : RangeMap V × Nat :=
  if length ≤ 0 then (m, 0)
  else
    let rmv := Range.new start length
    let m2 : RangeMap V := ⟨m.ranges.flatMap (removeFrag rmv)⟩
    (m2, m.size - m2.size)

/-- RangeMap::as_hashmap: one entry per stored interval, keyed by its start,
carrying its length and value.  Modelled as the underlying association
list; under the disjointness invariant its keys are distinct, so equality
of the built hash maps is permutation (or set) equality of these lists. -/
def RangeMap.as_hashmap {V : Type} (m : RangeMap V) : List (Nat × (Nat × V)) :=
  m.ranges.map (fun p => (p.1.start, (p.1.size, p.2)))

/-- Modelled after the words of the spec for remove: an interval with no
intersection is kept; the fragment left of the intersection and the
fragment right of it are kept when non-empty, both carrying the original
value; a fully covered interval is dropped. -/
def specRemoveFragments {V : Type} (rmv : Range) (p : Range × V) : List (Range × V) :=
  match p.1.intersection rmv with
  | none => [p]
  | some i =>
    (if p.1.start < i.start then [((⟨p.1.start, i.start⟩ : Range), p.2)] else [])
      ++ (if i.stop < p.1.stop then [((⟨i.stop, p.1.stop⟩ : Range), p.2)] else [])

/-- Sorted association-list insert, modelling BTreeMap insert: keeps keys in
strictly increasing order, replacing the value at an existing key. -/
def stInsert {V : Type} (k : Nat) (v : V) : List (Nat × V) → List (Nat × V)
  | [] => [(k, v)]
  | (k2, v2) :: rest =>
    if k < k2 then (k, v) :: (k2, v2) :: rest
    else if k = k2 then (k, v) :: rest
    else (k2, v2) :: stInsert k v rest

/-- The per-byte reference model (rangemap.rs tests, struct StupidRangeMap):
one entry per tracked byte address, in a sorted map. -/
structure StupidRangeMap (V : Type) where
  items : List (Nat × V)
deriving Repr

/-- StupidRangeMap::new. -/
def StupidRangeMap.new {V : Type} : StupidRangeMap V := ⟨[]⟩

/-- Loop of StupidRangeMap::add: insert one entry per address of the range,
in ascending order. -/
def stAddLoop {V : Type} (start : Nat) (v : V) : Nat → List (Nat × V) → List (Nat × V)
  | 0, items => items
  | n + 1, items => stAddLoop (start + 1) v n (stInsert start v items)

/-- StupidRangeMap::add. -/
def StupidRangeMap.add {V : Type} (s : StupidRangeMap V) (start length : Nat) (value : V) :
    StupidRangeMap V :=
  ⟨stAddLoop start value length s.items⟩

/-- Loop of StupidRangeMap::remove: delete one entry per address of the
range, counting how many were present. -/
def stRemoveLoop {V : Type} (start : Nat) : Nat → List (Nat × V) → Nat × List (Nat × V)
  | 0, items => (0, items)
  | n + 1, items =>
    let r := alRemove start items
    let r2 := stRemoveLoop (start + 1) n r.2
    ((if r.1.isSome then 1 else 0) + r2.1, r2.2)

/-- StupidRangeMap::remove: returns the new map and the removed count. -/
def StupidRangeMap.remove {V : Type} (s : StupidRangeMap V) (start length : Nat) :
    StupidRangeMap V × Nat :=
  let r := stRemoveLoop start length s.items
  (⟨r.2⟩, r.1)

/-- StupidRangeMap::size: number of tracked byte addresses. -/
def StupidRangeMap.size {V : Type} (s : StupidRangeMap V) : Nat := s.items.length

/-- Run-building loop of StupidRangeMap::as_hashmap: an open run (start,
length, value, key of its last entry) is extended while the next entry is
at the adjacent address with an equal value, and emitted otherwise. -/
def runsGo {V : Type} [DecidableEq V] (start len : Nat) (v : V) (last : Nat) :
    List (Nat × V) → List (Nat × (Nat × V))
  | [] => [(start, (len, v))]
  | (k, w) :: rest =>
    if k = last + 1 ∧ w = v then runsGo start (len + 1) v k rest
    else (start, (len, v)) :: runsGo k 1 w k rest

/-- Maximal runs of adjacent equal-valued entries of a sorted per-byte list,
each as (start, (length, value)). -/
def runs {V : Type} [DecidableEq V] : List (Nat × V) → List (Nat × (Nat × V))
  | [] => []
  | (k, v) :: rest => runsGo k 1 v k rest

/-- StupidRangeMap::as_hashmap: coalesces adjacent same-value entries into
runs; modelled as the list of runs of the sorted per-byte list. -/
def StupidRangeMap.as_hashmap {V : Type} [DecidableEq V] (s : StupidRangeMap V) :
    List (Nat × (Nat × V)) :=
  runs s.items

/-- One range-map operation. -/
inductive RMOp (V : Type) where
  | add (start length : Nat) (value : V)
  | rem (start length : Nat)

/-- Run a sequence of operations on the interval-list range map, collecting
the value returned by each remove. -/
def runRMOut {V : Type} (m : RangeMap V) : List (RMOp V) → RangeMap V × List Nat
  | [] => (m, [])
  | RMOp.add s l v :: rest => runRMOut (m.add s l v) rest
  | RMOp.rem s l :: rest =>
    let r := m.remove s l
    let r2 := runRMOut r.1 rest
    (r2.1, r.2 :: r2.2)

/-- Run a sequence of operations on the per-byte reference model, collecting
the value returned by each remove. -/
def runStOut {V : Type} (s : StupidRangeMap V) : List (RMOp V) → StupidRangeMap V × List Nat
  | [] => (s, [])
  | RMOp.add st l v :: rest => runStOut (s.add st l v) rest
  | RMOp.rem st l :: rest =>
    let r := s.remove st l
    let r2 := runStOut r.1 rest
    (r2.1, r.2 :: r2.2)

/-- The final interval-list map of a run. -/
def runRM {V : Type} (m : RangeMap V) (ops : List (RMOp V)) : RangeMap V :=
  (runRMOut m ops).1

/-- Does a candidate range intersect none of the stored ranges. -/
def rangesDisjointB {V : Type} (r : Range) (m : RangeMap V) : Bool :=
  m.ranges.all (fun p => (p.1.intersection r).isNone)

/-- Boolean guard of the claim as stated: every add of the sequence has a
range that does not overlap any range stored at that moment (zero-length
adds, which the map ignores, are also allowed). -/
def noOverlapAddsB {V : Type} : RangeMap V → List (RMOp V) → Bool
  | _, [] => true
  | m, RMOp.add s l v :: rest =>
    (decide (l = 0) || rangesDisjointB (Range.new s l) m)
      && noOverlapAddsB (m.add s l v) rest
  | m, RMOp.rem s l :: rest => noOverlapAddsB (m.remove s l).1 rest

/-- Separation of a candidate range and value from one stored tagged range:
either a gap of at least one byte lies between them, or they touch exactly
and carry different values. -/
def sepFrom {V : Type} (r : Range) (v : V) (p : Range × V) : Prop :=
  (p.1.stop < r.start ∨ r.stop < p.1.start)
    ∨ ((p.1.stop = r.start ∨ r.stop = p.1.start) ∧ p.2 ≠ v)

instance {V : Type} [DecidableEq V] (r : Range) (v : V) (p : Range × V) :
    Decidable (sepFrom r v p) := by
  unfold sepFrom; infer_instance

/-- Boolean guard of the amended equivalence claim: every operation has a
positive length, and every added range is separated from each stored range
(no overlap, and touching only with a different value). -/
def sepAddsB {V : Type} [DecidableEq V] : RangeMap V → List (RMOp V) → Bool
  | _, [] => true
  | m, RMOp.add s l v :: rest =>
    decide (0 < l) && m.ranges.all (fun p => decide (sepFrom (Range.new s l) v p))
      && sepAddsB (m.add s l v) rest
  | m, RMOp.rem s l :: rest => decide (0 < l) && sepAddsB (m.remove s l).1 rest

/-- Ordering of tagged ranges by start address. -/
def leStart {V : Type} (p q : Range × V) : Prop := p.1.start ≤ q.1.start

instance {V : Type} : DecidableRel (leStart (V := V)) := by
  unfold leStart; intro p q; infer_instance

instance {V : Type} : IsTotal (Range × V) leStart :=
  ⟨fun p q => Nat.le_total p.1.start q.1.start⟩

instance {V : Type} : IsTrans (Range × V) leStart :=
  ⟨fun p q r2 h1 h2 => Nat.le_trans h1 h2⟩

/-- Insertion sort of tagged ranges by start address. -/
def sortByStart {V : Type} (l : List (Range × V)) : List (Range × V) :=
  l.insertionSort leStart

/-- Per-byte enumeration of one tagged range, in ascending address order. -/
def blockOf {V : Type} (p : Range × V) : List (Nat × V) :=
  (List.range' p.1.start p.1.size).map (fun a => (a, p.2))

/-- The value the interval-list map stores for one byte address. -/
def rmByteAt {V : Type} (m : RangeMap V) (a : Nat) : Option V :=
  (m.ranges.find? (fun p => decide (p.1.start ≤ a ∧ a < p.1.stop))).map Prod.snd

/-- Bump-by entry of a string-keyed counter map, modelling entry(k).or_insert(0)
followed by an addition. -/
def alUpsertAdd {κ : Type} [DecidableEq κ] (k : κ) (n : Nat) : List (κ × Nat) → List (κ × Nat)
  | [] => [(k, n)]
  | (k2, m) :: rest => if k = k2 then (k2, m + n) :: rest else (k2, m) :: alUpsertAdd k n rest

/-- AllocationTracker::combine_callstacks: render each peak record through
the reverse call-site map and sum sizes per distinct rendered string. -/
def AllocationTracker.combine_callstacks (t : AllocationTracker) : List (String × Nat) :=
  let id_to_callsite := t.call_sites.get_reverse_map
  t.peak_allocations.foldl
    (fun by_call p => alUpsertAdd (p.2.callstack.as_string id_to_callsite) p.2.size by_call)
    []

/-- The concrete tracker of the aggregation example: three interned call
sites, allocations of 1000, 234 and 50000 bytes at addresses 1, 2 and 3. -/
def exTrackerC10 : AllocationTracker :=
  let t0 := AllocationTracker.new
  let r1 := t0.call_sites.get_or_insert_id ⟨"a", "af"⟩
  let t1 := { t0 with call_sites := r1.2 }
  let r2 := t1.call_sites.get_or_insert_id ⟨"b", "bf"⟩
  let t2 := { t1 with call_sites := r2.2 }
  let r3 := t2.call_sites.get_or_insert_id ⟨"c", "cf"⟩
  let t3 := { t2 with call_sites := r3.2 }
  let cs1 := (Callstack.new.start_call r1.1).start_call r2.1
  let cs2 := Callstack.new.start_call r3.1
  ((t3.add_allocation 1 1000 cs1).add_allocation 2 234 cs2).add_allocation 3 50000 cs1

/-- Two tagged ranges do not overlap (their intersection is empty). -/
def interNone {V : Type} (p q : Range × V) : Prop := p.1.intersection q.1 = none

instance {V : Type} (p q : Range × V) : Decidable (interNone p q) := by
  unfold interNone; infer_instance

/-- Every stored interval of a range map has positive length. -/
def rmPositive {V : Type} (m : RangeMap V) : Prop := ∀ p ∈ m.ranges, 0 < p.1.size

/-- Pairwise separation of stored tagged ranges: any two are either
separated by a gap of at least one byte, or touch exactly with different
values. -/
def pairSep {V : Type} (p q : Range × V) : Prop := sepFrom q.1 q.2 p

/-- Strictly increasing keys of a sorted association list. -/
def stSortedLt {V : Type} (l : List (Nat × V)) : Prop :=
  l.Pairwise (fun p q => p.1 < q.1)

/-- The per-byte model stores exactly the bytes of the interval-list map. -/
def stMatches {V : Type} (m : RangeMap V) (s : StupidRangeMap V) : Prop :=
  ∀ a, alLookup a s.items = rmByteAt m a

/-- Coupling invariant between the interval-list map and the per-byte
model: positive separated intervals on one side, a sorted byte list on the
other, and pointwise equal contents. -/
def rmStInv {V : Type} (m : RangeMap V) (s : StupidRangeMap V) : Prop :=
  rmPositive m ∧ m.ranges.Pairwise pairSep ∧ stSortedLt s.items ∧ stMatches m s

/-! Lemmas about the association-list map operations. -/

theorem alLookup_insert_self {κ α : Type} [DecidableEq κ] (k : κ) (v : α) (l : List (κ × α)) :
    alLookup k (alInsert k v l) = some v := by
  induction l with
  | nil => simp [alInsert, alLookup]
  | cons p rest ih =>
    obtain ⟨k2, v2⟩ := p
    by_cases h : k = k2 <;> simp [alInsert, alLookup, h, ih]

theorem alLookup_insert_ne {κ α : Type} [DecidableEq κ] (k k2 : κ) (v : α) (l : List (κ × α))
    (h : k2 ≠ k) : alLookup k2 (alInsert k v l) = alLookup k2 l := by
  induction l with
  | nil => simp [alInsert, alLookup, h]
  | cons p rest ih =>
    obtain ⟨k3, v3⟩ := p
    by_cases h2 : k = k3
    · subst h2; simp [alInsert, alLookup, h]
    · by_cases h3 : k2 = k3 <;> simp [alInsert, alLookup, h2, h3, ih]

theorem alInsert_of_lookup_none {κ α : Type} [DecidableEq κ] (k : κ) (v : α)
    (l : List (κ × α)) (h : alLookup k l = none) : alInsert k v l = l ++ [(k, v)] := by
  induction l with
  | nil => simp [alInsert]
  | cons p rest ih =>
    obtain ⟨k2, v2⟩ := p
    by_cases h2 : k = k2
    · simp [alLookup, h2] at h
    · simp [alLookup, h2] at h
      simp [alInsert, h2, ih h]

theorem alRemove_fst_eq_lookup {κ α : Type} [DecidableEq κ] (k : κ) (l : List (κ × α)) :
    (alRemove k l).1 = alLookup k l := by
  induction l with
  | nil => simp [alRemove, alLookup]
  | cons p rest ih =>
    obtain ⟨k2, v2⟩ := p
    by_cases h : k = k2 <;> simp [alRemove, alLookup, h, ih]

theorem alRemove_none_snd {κ α : Type} [DecidableEq κ] (k : κ) (l : List (κ × α))
    (h : (alRemove k l).1 = none) : (alRemove k l).2 = l := by
  induction l with
  | nil => simp [alRemove]
  | cons p rest ih =>
    obtain ⟨k2, v2⟩ := p
    by_cases h2 : k = k2
    · simp [alRemove, h2] at h
    · simp [alRemove, h2] at h ⊢
      exact ih h

theorem sumSizes_append (l1 l2 : List (Nat × Allocation)) :
    sumSizes (l1 ++ l2) = sumSizes l1 + sumSizes l2 := by
  simp [sumSizes]

theorem alRemove_some_sum (k : Nat) (l : List (Nat × Allocation)) (v : Allocation)
    (h : (alRemove k l).1 = some v) :
    sumSizes l = v.size + sumSizes (alRemove k l).2 := by
  induction l with
  | nil => simp [alRemove] at h
  | cons p rest ih =>
    obtain ⟨k2, v2⟩ := p
    by_cases h2 : k = k2
    · simp [alRemove, h2] at h ⊢
      subst h
      simp [sumSizes]
    · simp [alRemove, h2] at h ⊢
      have := ih h
      simp [sumSizes] at this ⊢
      omega

/-! Tracker claims about single operations. -/

/-- C2 (peak snapshot fidelity): an allocation that makes the current byte
total strictly exceed the prior peak makes peak_allocations equal to the
new current_allocations; an allocation that does not, and every free,
leaves peak_allocations unchanged. -/
theorem peak_snapshot_fidelity (t : AllocationTracker) (a s : Nat) (cs : Callstack)
    (a2 : Nat) :
    (t.add_allocation a s cs).peak_allocations
      = (if t.current_allocated_bytes + s > t.peak_allocated_bytes
         then (t.add_allocation a s cs).current_allocations
         else t.peak_allocations)
    ∧ (t.free_allocation a2).peak_allocations = t.peak_allocations := by
  constructor
  · by_cases h : t.current_allocated_bytes + s > t.peak_allocated_bytes <;>
      simp [AllocationTracker.add_allocation, h]
  · unfold AllocationTracker.free_allocation
    rcases h : alRemove a2 t.current_allocations with ⟨o, rest⟩
    match o with
    | none => simp
    | some removed =>
      by_cases h2 : removed.size > t.current_allocated_bytes <;> simp [h2]

/-- C7 (overwrite behavior): when an address already holds a record, a new
allocation at it replaces the record, leaves other addresses unchanged, and
adds the full new size to the byte total without subtracting the
overwritten size. -/
theorem add_allocation_overwrites (t : AllocationTracker) (a s : Nat) (cs : Callstack)
    (old : Allocation) (h : alLookup a t.current_allocations = some old) :
    alLookup a (t.add_allocation a s cs).current_allocations = some ⟨cs, s⟩
    ∧ (∀ a2, a2 ≠ a → alLookup a2 (t.add_allocation a s cs).current_allocations
        = alLookup a2 t.current_allocations)
    ∧ (t.add_allocation a s cs).current_allocated_bytes
        = t.current_allocated_bytes + s := by
  refine ⟨?_, ?_, ?_⟩
  · by_cases h2 : t.current_allocated_bytes + s > t.peak_allocated_bytes <;>
      simp [AllocationTracker.add_allocation, h2, alLookup_insert_self]
  · intro a2 hne
    by_cases h2 : t.current_allocated_bytes + s > t.peak_allocated_bytes <;>
      simp [AllocationTracker.add_allocation, h2, alLookup_insert_ne a a2 _ _ hne]
  · by_cases h2 : t.current_allocated_bytes + s > t.peak_allocated_bytes <;>
      simp [AllocationTracker.add_allocation, h2]

/-- Witness for C7 at a concrete input: address 1 holds a 10-byte record,
then a 5-byte allocation at the same address replaces it and raises the
total to 15. -/
theorem add_allocation_overwrites_witness :
    alLookup 1 ((AllocationTracker.new.add_allocation 1 10 ⟨[]⟩).current_allocations)
      = some ⟨⟨[]⟩, 10⟩
    ∧ alLookup 1 (((AllocationTracker.new.add_allocation 1 10 ⟨[]⟩).add_allocation 1 5
        ⟨[]⟩).current_allocations) = some ⟨⟨[]⟩, 5⟩
    ∧ (((AllocationTracker.new.add_allocation 1 10 ⟨[]⟩).add_allocation 1 5
        ⟨[]⟩).current_allocated_bytes) = 15 := by
  have h := add_allocation_overwrites (AllocationTracker.new.add_allocation 1 10 ⟨[]⟩)
    1 5 ⟨[]⟩ ⟨⟨[]⟩, 10⟩ (by decide)
  exact ⟨by decide, h.1, by
    have h3 := h.2.2
    simpa using h3⟩

/-- C8 (free of an unknown address): when the address is absent the whole
tracker state is returned unchanged. -/
theorem free_unknown_noop (t : AllocationTracker) (a : Nat)
    (h : alLookup a t.current_allocations = none) :
    t.free_allocation a = t := by
  have h1 : (alRemove a t.current_allocations).1 = none := by
    rw [alRemove_fst_eq_lookup]; exact h
  unfold AllocationTracker.free_allocation
  rcases h2 : alRemove a t.current_allocations with ⟨o, rest⟩
  rw [h2] at h1
  simp at h1
  subst h1
  simp

/-- Witness for C8 at the concrete input of the spec example: freeing
address 99 on a fresh tracker leaves the byte total at zero. -/
theorem free_unknown_noop_witness :
    alLookup 99 AllocationTracker.new.current_allocations = none
    ∧ (AllocationTracker.new.free_allocation 99).current_allocated_bytes = 0 := by
  refine ⟨by decide, ?_⟩
  rw [free_unknown_noop AllocationTracker.new 99 (by decide)]
  rfl

/-- C9 (underflow clamp on free): free_allocation is total, and the new byte
total is the old total minus the removed size, clamped at zero instead of
wrapping; when the subtraction branch runs its result is never below zero. -/
theorem free_clamps_at_zero (t : AllocationTracker) (a : Nat) :
    ((t.free_allocation a).current_allocated_bytes : Int)
      = max 0 ((t.current_allocated_bytes : Int)
          - (((alLookup a t.current_allocations).map Allocation.size).getD 0 : Nat)) := by
  have h1 := alRemove_fst_eq_lookup a t.current_allocations
  unfold AllocationTracker.free_allocation
  rcases h2 : alRemove a t.current_allocations with ⟨o, rest⟩
  rw [h2] at h1
  match o with
  | none =>
    simp [← h1]
  | some removed =>
    by_cases h3 : removed.size > t.current_allocated_bytes
    · simp [← h1, h3]
      omega
    · simp [← h1, h3]
      omega

/-! Conservation and peak monotonicity over operation sequences. -/

/-- C1 (counterexample): two allocations at the same address with no
intervening free leave the byte total at 15 while the records in the map
sum to 5, because the overwritten size is never subtracted. -/
theorem conservation_counterexample :
    (runTracker AllocationTracker.new
        [TrackerOp.add 1 10 ⟨[]⟩, TrackerOp.add 1 5 ⟨[]⟩]).current_allocated_bytes
      ≠ sumSizes (runTracker AllocationTracker.new
        [TrackerOp.add 1 10 ⟨[]⟩, TrackerOp.add 1 5 ⟨[]⟩]).current_allocations := by
  decide

theorem conservation_invariant_step (t : AllocationTracker) (op : TrackerOp)
    (inv : t.current_allocated_bytes = sumSizes t.current_allocations)
    (hok : match op with
      | TrackerOp.add a _ _ => alLookup a t.current_allocations = none
      | TrackerOp.free _ => True) :
    (applyTrackerOp t op).current_allocated_bytes
      = sumSizes (applyTrackerOp t op).current_allocations := by
  match op with
  | TrackerOp.add a s cs =>
    simp only [applyTrackerOp]
    have h1 : alInsert a ⟨cs, s⟩ t.current_allocations
        = t.current_allocations ++ [(a, ⟨cs, s⟩)] := alInsert_of_lookup_none a _ _ hok
    have hf : (t.add_allocation a s cs).current_allocations
          = alInsert a ⟨cs, s⟩ t.current_allocations
        ∧ (t.add_allocation a s cs).current_allocated_bytes
          = t.current_allocated_bytes + s := by
      by_cases h2 : t.current_allocated_bytes + s > t.peak_allocated_bytes <;>
        simp [AllocationTracker.add_allocation, h2]
    rw [hf.2, hf.1, h1, sumSizes_append]
    have h5 : sumSizes [(a, (⟨cs, s⟩ : Allocation))] = s := by simp [sumSizes]
    omega
  | TrackerOp.free a =>
    simp only [applyTrackerOp]
    unfold AllocationTracker.free_allocation
    rcases h2 : alRemove a t.current_allocations with ⟨o, rest⟩
    match o with
    | none => simpa using inv
    | some removed =>
      have h3 : sumSizes t.current_allocations = removed.size + sumSizes rest := by
        have h6 := alRemove_some_sum a t.current_allocations removed (by rw [h2])
        rwa [h2] at h6
      by_cases h4 : removed.size > t.current_allocated_bytes
      · simp only [h4, if_pos]
        omega
      · simp only [h4, if_neg, if_false]
        simp only [gt_iff_lt, not_lt] at h4
        omega

theorem conservation_run (ops : List TrackerOp) :
    ∀ t : AllocationTracker, t.current_allocated_bytes = sumSizes t.current_allocations →
    noDupAddsB t ops = true →
    (runTracker t ops).current_allocated_bytes
      = sumSizes (runTracker t ops).current_allocations := by
  induction ops with
  | nil => intro t inv _; simpa [runTracker] using inv
  | cons op rest ih =>
    intro t inv hok
    match op with
    | TrackerOp.add a s cs =>
      simp only [noDupAddsB, Bool.and_eq_true, beq_iff_eq] at hok
      have step := conservation_invariant_step t (TrackerOp.add a s cs) inv hok.1
      have : runTracker t (TrackerOp.add a s cs :: rest)
          = runTracker (t.add_allocation a s cs) rest := by
        simp [runTracker, applyTrackerOp]
      rw [this]
      exact ih _ step hok.2
    | TrackerOp.free a =>
      simp only [noDupAddsB] at hok
      have step := conservation_invariant_step t (TrackerOp.free a) inv trivial
      have : runTracker t (TrackerOp.free a :: rest)
          = runTracker (t.free_allocation a) rest := by
        simp [runTracker, applyTrackerOp]
      rw [this]
      exact ih _ step hok

/-- C1 (amended): for every sequence of operations in which each allocation
targets an address not currently tracked, the byte total equals the sum of
the record sizes in the current map after every operation (every prefix of
such a sequence is again such a sequence, so this covers each step). -/
theorem conservation_amended (ops : List TrackerOp)
    (h : noDupAddsB AllocationTracker.new ops = true) :
    (runTracker AllocationTracker.new ops).current_allocated_bytes
      = sumSizes (runTracker AllocationTracker.new ops).current_allocations :=
  conservation_run ops AllocationTracker.new (by rfl) h

/-- Witness for the amended C1: allocate ten bytes at address 1, free it,
allocate five bytes there again; the total and the map sum agree at 5. -/
theorem conservation_amended_witness :
    noDupAddsB AllocationTracker.new
      [TrackerOp.add 1 10 ⟨[]⟩, TrackerOp.free 1, TrackerOp.add 1 5 ⟨[]⟩] = true
    ∧ (runTracker AllocationTracker.new
        [TrackerOp.add 1 10 ⟨[]⟩, TrackerOp.free 1, TrackerOp.add 1 5 ⟨[]⟩]).current_allocated_bytes
      = sumSizes (runTracker AllocationTracker.new
        [TrackerOp.add 1 10 ⟨[]⟩, TrackerOp.free 1, TrackerOp.add 1 5 ⟨[]⟩]).current_allocations :=
  ⟨by decide, conservation_amended _ (by decide)⟩

theorem peak_step_mono (t : AllocationTracker) (op : TrackerOp) :
    t.peak_allocated_bytes ≤ (applyTrackerOp t op).peak_allocated_bytes := by
  match op with
  | TrackerOp.add a s cs =>
    simp only [applyTrackerOp]
    by_cases h : t.current_allocated_bytes + s > t.peak_allocated_bytes <;>
      simp [AllocationTracker.add_allocation, h]
    omega
  | TrackerOp.free a =>
    simp only [applyTrackerOp]
    unfold AllocationTracker.free_allocation
    rcases h2 : alRemove a t.current_allocations with ⟨o, rest⟩
    match o with
    | none => simp
    | some removed =>
      by_cases h4 : removed.size > t.current_allocated_bytes <;> simp [h4]

theorem cur_le_peak_step (t : AllocationTracker) (op : TrackerOp)
    (inv : t.current_allocated_bytes ≤ t.peak_allocated_bytes) :
    (applyTrackerOp t op).current_allocated_bytes
      ≤ (applyTrackerOp t op).peak_allocated_bytes := by
  match op with
  | TrackerOp.add a s cs =>
    simp only [applyTrackerOp]
    by_cases h : t.current_allocated_bytes + s > t.peak_allocated_bytes <;>
      simp [AllocationTracker.add_allocation, h]
    omega
  | TrackerOp.free a =>
    simp only [applyTrackerOp]
    unfold AllocationTracker.free_allocation
    rcases h2 : alRemove a t.current_allocations with ⟨o, rest⟩
    match o with
    | none => simpa using inv
    | some removed =>
      by_cases h4 : removed.size > t.current_allocated_bytes <;> simp [h4] <;> omega

theorem peak_run_mono (ops : List TrackerOp) :
    ∀ t : AllocationTracker, t.peak_allocated_bytes ≤ (runTracker t ops).peak_allocated_bytes := by
  induction ops with
  | nil => intro t; simp [runTracker]
  | cons op rest ih =>
    intro t
    have h1 := peak_step_mono t op
    have h2 := ih (applyTrackerOp t op)
    have h3 : runTracker t (op :: rest) = runTracker (applyTrackerOp t op) rest := by
      simp [runTracker]
    rw [h3]
    omega

theorem cur_le_peak_run (ops : List TrackerOp) :
    ∀ t : AllocationTracker, t.current_allocated_bytes ≤ t.peak_allocated_bytes →
    (runTracker t ops).current_allocated_bytes ≤ (runTracker t ops).peak_allocated_bytes := by
  induction ops with
  | nil => intro t inv; simpa [runTracker] using inv
  | cons op rest ih =>
    intro t inv
    have step := cur_le_peak_step t op inv
    have : runTracker t (op :: rest) = runTracker (applyTrackerOp t op) rest := by
      simp [runTracker]
    rw [this]
    exact ih _ step

/-- C3 (peak monotonicity): starting from a fresh tracker, the peak byte
total never decreases as further operations run, and after every sequence
of operations the current byte total is at most the peak. -/
theorem peak_monotonicity (pre suf : List TrackerOp) :
    (runTracker AllocationTracker.new pre).peak_allocated_bytes
      ≤ (runTracker AllocationTracker.new (pre ++ suf)).peak_allocated_bytes
    ∧ (runTracker AllocationTracker.new (pre ++ suf)).current_allocated_bytes
      ≤ (runTracker AllocationTracker.new (pre ++ suf)).peak_allocated_bytes := by
  have happ : runTracker AllocationTracker.new (pre ++ suf)
      = runTracker (runTracker AllocationTracker.new pre) suf := by
    simp [runTracker, List.foldl_append]
  constructor
  · rw [happ]; exact peak_run_mono suf _
  · rw [happ]
    apply cur_le_peak_run
    have : AllocationTracker.new.current_allocated_bytes
        ≤ AllocationTracker.new.peak_allocated_bytes := by decide
    exact cur_le_peak_run pre AllocationTracker.new this

/-! Aggregation of the peak snapshot by rendered call stack. -/

theorem alUpsertAdd_lookup_self {κ : Type} [DecidableEq κ] (k : κ) (n : Nat)
    (l : List (κ × Nat)) :
    alLookup k (alUpsertAdd k n l) = some ((alLookup k l).getD 0 + n) := by
  induction l with
  | nil => simp [alUpsertAdd, alLookup]
  | cons p rest ih =>
    obtain ⟨k2, m⟩ := p
    by_cases h : k = k2
    · subst h; simp [alUpsertAdd, alLookup]
    · simp [alUpsertAdd, alLookup, h, ih]

theorem alUpsertAdd_lookup_ne {κ : Type} [DecidableEq κ] (k s : κ) (n : Nat)
    (l : List (κ × Nat)) (h : s ≠ k) :
    alLookup s (alUpsertAdd k n l) = alLookup s l := by
  induction l with
  | nil => simp [alUpsertAdd, alLookup, h]
  | cons p rest ih =>
    obtain ⟨k2, m⟩ := p
    by_cases h2 : k = k2
    · subst h2; simp [alUpsertAdd, alLookup, h]
    · by_cases h3 : s = k2 <;> simp [alUpsertAdd, alLookup, h2, h3, ih]

theorem combine_fold_lookup (render : (Nat × Allocation) → String)
    (l : List (Nat × Allocation)) :
    ∀ acc : List (String × Nat), ∀ s : String,
    (alLookup s (l.foldl (fun by_call p => alUpsertAdd (render p) p.2.size by_call) acc)).getD 0
      = (alLookup s acc).getD 0 + sumSizes (l.filter (fun p => render p == s))
    ∧ (alLookup s (l.foldl (fun by_call p => alUpsertAdd (render p) p.2.size by_call) acc)).isSome
      = ((alLookup s acc).isSome || l.any (fun p => render p == s)) := by
  induction l with
  | nil => intro acc s; simp [sumSizes]
  | cons p rest ih =>
    intro acc s
    have hfold : ((p :: rest).foldl
          (fun by_call q => alUpsertAdd (render q) q.2.size by_call) acc)
        = rest.foldl (fun by_call q => alUpsertAdd (render q) q.2.size by_call)
            (alUpsertAdd (render p) p.2.size acc) := by
      simp
    rw [hfold]
    have h1 := ih (alUpsertAdd (render p) p.2.size acc) s
    by_cases h : render p = s
    · have hself : alLookup s (alUpsertAdd (render p) p.2.size acc)
          = some ((alLookup s acc).getD 0 + p.2.size) := by
        rw [← h]; exact alUpsertAdd_lookup_self (render p) p.2.size acc
      constructor
      · rw [h1.1, hself]
        simp [h, sumSizes]
        omega
      · rw [h1.2, hself]
        simp [h]
    · have hne : alLookup s (alUpsertAdd (render p) p.2.size acc) = alLookup s acc :=
        alUpsertAdd_lookup_ne (render p) s p.2.size acc (fun h2 => h h2.symm)
      have hb : (render p == s) = false := by
        simp only [beq_eq_false_iff_ne, ne_eq]
        exact h
      constructor
      · rw [h1.1, hne]
        simp [hb]
      · rw [h1.2, hne]
        simp [hb]

/-- C10 (aggregation correctness): combine_callstacks maps each rendered
call-stack string to the sum of the sizes of the peak records rendering to
it (and holds a key exactly when some peak record renders to it); on the
concrete example of the spec it returns exactly the two expected entries. -/
theorem combine_callstacks_aggregates :
    (∀ t : AllocationTracker, ∀ s : String,
      (alLookup s t.combine_callstacks).getD 0
        = sumSizes (t.peak_allocations.filter
            (fun p => p.2.callstack.as_string t.call_sites.get_reverse_map == s))
      ∧ (alLookup s t.combine_callstacks).isSome
          = t.peak_allocations.any
              (fun p => p.2.callstack.as_string t.call_sites.get_reverse_map == s))
    ∧ exTrackerC10.combine_callstacks.toFinset
        = ({("a:af;b:bf", 51000), ("c:cf", 234)} : Finset (String × Nat)) := by
  constructor
  · intro t s
    have h := combine_fold_lookup
      (fun p => p.2.callstack.as_string t.call_sites.get_reverse_map)
      t.peak_allocations [] s
    constructor
    · have h2 := h.1
      simpa [AllocationTracker.combine_callstacks, alLookup] using h2
    · have h2 := h.2
      simpa [AllocationTracker.combine_callstacks, alLookup] using h2
  · decide

/-! Range map removal: case analysis and intersection arithmetic. -/

theorem intersection_some_bounds (r w i : Range) (h : r.intersection w = some i) :
    i.start = max r.start w.start ∧ i.stop = min r.stop w.stop ∧ i.start < i.stop := by
  by_cases h2 : min r.stop w.stop ≤ max r.start w.start
  · simp [Range.intersection, h2] at h
  · have h4 : some (⟨max r.start w.start, min r.stop w.stop⟩ : Range) = some i := by
      rw [← h]; simp [Range.intersection, h2]
    have h5 : (⟨max r.start w.start, min r.stop w.stop⟩ : Range) = i :=
      Option.some.inj h4
    rw [← h5]
    refine ⟨rfl, rfl, ?_⟩
    simp only []
    omega

theorem intersection_none_iff (r w : Range) :
    r.intersection w = none ↔ min r.stop w.stop ≤ max r.start w.start := by
  by_cases h2 : min r.stop w.stop ≤ max r.start w.start <;>
    simp [Range.intersection, h2]

theorem removeFrag_eq_spec {V : Type} (rmv : Range) (p : Range × V) :
    removeFrag rmv p = specRemoveFragments rmv p := by
  unfold removeFrag specRemoveFragments
  cases h : p.1.intersection rmv with
  | none => rfl
  | some i =>
    obtain ⟨h1, h2, h3⟩ := intersection_some_bounds _ _ _ h
    have ha : p.1.start ≤ i.start := by omega
    have hb : i.stop ≤ p.1.stop := by omega
    by_cases e1 : i.start = p.1.start <;> by_cases e2 : i.stop = p.1.stop
    · have c1 : ¬ p.1.start < i.start := by omega
      have c2 : ¬ i.stop < p.1.stop := by omega
      simp [e1, e2, c1, c2]
    · have hlt : i.stop < p.1.stop := by omega
      have c1 : ¬ p.1.start < i.start := by omega
      simp [e1, e2, hlt, c1]
    · have hlt : p.1.start < i.start := by omega
      have c2 : ¬ i.stop < p.1.stop := by omega
      simp [e1, e2, hlt, c2]
    · have hlt : p.1.start < i.start := by omega
      have hlt2 : i.stop < p.1.stop := by omega
      simp [e1, e2, hlt, hlt2]

theorem specFrag_sizes {V : Type} (rmv : Range) (p : Range × V) :
    ((specRemoveFragments rmv p).map (fun q => q.1.size)).sum + interSize p.1 rmv
      = p.1.size := by
  unfold specRemoveFragments interSize
  cases h : p.1.intersection rmv with
  | none => simp [Range.size]
  | some i =>
    obtain ⟨h1, h2, h3⟩ := intersection_some_bounds _ _ _ h
    by_cases c1 : p.1.start < i.start <;> by_cases c2 : i.stop < p.1.stop <;>
      simp [c1, c2, Range.size] <;> omega

theorem remove_sizes_split {V : Type} (rmv : Range) (l : List (Range × V)) :
    ((l.flatMap (specRemoveFragments rmv)).map (fun q => q.1.size)).sum
      + (l.map (fun p => interSize p.1 rmv)).sum
      = (l.map (fun p => p.1.size)).sum := by
  induction l with
  | nil => simp
  | cons p rest ih =>
    have h := specFrag_sizes rmv p
    simp only [List.flatMap_cons, List.map_append, List.sum_append, List.map_cons,
      List.sum_cons]
    omega

theorem remove_ranges_eq {V : Type} (m : RangeMap V) (start length : Nat)
    (h : 0 < length) :
    (m.remove start length).1.ranges
      = m.ranges.flatMap (specRemoveFragments (Range.new start length)) := by
  have hlen : ¬ length ≤ 0 := by omega
  have hfr : removeFrag (V := V) (Range.new start length)
      = specRemoveFragments (Range.new start length) :=
    funext (removeFrag_eq_spec (Range.new start length))
  simp [RangeMap.remove, hlen, hfr]

theorem remove_count_eq {V : Type} (m : RangeMap V) (start length : Nat)
    (h : 0 < length) :
    (m.remove start length).2
      = (m.ranges.map (fun p => interSize p.1 (Range.new start length))).sum := by
  have hlen : ¬ length ≤ 0 := by omega
  have hfr : removeFrag (V := V) (Range.new start length)
      = specRemoveFragments (Range.new start length) :=
    funext (removeFrag_eq_spec (Range.new start length))
  have hs := remove_sizes_split (Range.new start length) m.ranges
  simp only [RangeMap.remove, hlen, if_false, RangeMap.size, hfr]
  omega

/-- C4 (range map removal semantics): for positive length, remove rewrites
the interval list by keeping non-intersecting intervals, dropping fully
covered ones and keeping the non-empty left and right remainders of partial
overlaps with their original values, and returns the sum of the
intersection sizes over all stored intervals. -/
theorem rangemap_remove_spec {V : Type} (m : RangeMap V) (start length : Nat)
    (h : 0 < length) :
    (m.remove start length).1.ranges
        = m.ranges.flatMap (specRemoveFragments (Range.new start length))
    ∧ (m.remove start length).2
        = (m.ranges.map (fun p => interSize p.1 (Range.new start length))).sum :=
  ⟨remove_ranges_eq m start length h, remove_count_eq m start length h⟩

/-- Witness for C4 at the concrete example of the spec: after add(0, 10, X)
and remove(3, 4) exactly the fragments of addresses 0 to 3 and 7 to 10
remain, both tagged X, and remove returned 4. -/
theorem rangemap_remove_spec_witness :
    0 < 4
    ∧ ((RangeMap.new.add 0 10 (0 : Nat)).remove 3 4).1.ranges
        = [((⟨0, 3⟩ : Range), 0), ((⟨7, 10⟩ : Range), 0)]
    ∧ ((RangeMap.new.add 0 10 (0 : Nat)).remove 3 4).2 = 4 := by
  have h := rangemap_remove_spec (RangeMap.new.add 0 10 (0 : Nat)) 3 4 (by decide)
  refine ⟨by decide, ?_, ?_⟩
  · rw [h.1]; decide
  · rw [h.2]; decide

/-! Disjointness and positivity of stored intervals. -/

theorem interNone_mono (r1 r2 s1 s2 : Range)
    (h : Range.intersection r1 r2 = none)
    (ha : r1.start ≤ s1.start) (hb : s1.stop ≤ r1.stop)
    (hc : r2.start ≤ s2.start) (hd : s2.stop ≤ r2.stop) :
    Range.intersection s1 s2 = none := by
  rw [intersection_none_iff] at h ⊢
  omega

theorem specFrag_bounds {V : Type} (rmv : Range) (p q : Range × V)
    (hq : q ∈ specRemoveFragments rmv p) :
    p.1.start ≤ q.1.start ∧ q.1.stop ≤ p.1.stop ∧ q.2 = p.2
    ∧ (0 < p.1.size → 0 < q.1.size) := by
  unfold specRemoveFragments at hq
  cases h : p.1.intersection rmv with
  | none =>
    rw [h] at hq
    simp at hq
    subst hq
    exact ⟨le_refl _, le_refl _, rfl, fun x => x⟩
  | some i =>
    rw [h] at hq
    obtain ⟨h1, h2, h3⟩ := intersection_some_bounds _ _ _ h
    by_cases c1 : p.1.start < i.start <;> by_cases c2 : i.stop < p.1.stop <;>
      simp [c1, c2] at hq
    · rcases hq with hq | hq <;> subst hq <;>
        exact ⟨by simp [Range.size]; try omega, by simp [Range.size]; try omega, rfl,
          fun _ => by simp [Range.size]; try omega⟩
    · subst hq
      exact ⟨by simp [Range.size]; try omega, by simp [Range.size]; try omega, rfl,
        fun _ => by simp [Range.size]; try omega⟩
    · subst hq
      exact ⟨by simp [Range.size]; try omega, by simp [Range.size]; try omega, rfl,
        fun _ => by simp [Range.size]; try omega⟩

theorem specFrag_pairwise {V : Type} (rmv : Range) (p : Range × V) :
    (specRemoveFragments rmv p).Pairwise interNone := by
  unfold specRemoveFragments
  cases h : p.1.intersection rmv with
  | none => simp
  | some i =>
    obtain ⟨h1, h2, h3⟩ := intersection_some_bounds _ _ _ h
    by_cases c1 : p.1.start < i.start <;> by_cases c2 : i.stop < p.1.stop <;>
      simp [c1, c2]
    simp [interNone, intersection_none_iff]
    omega

theorem pairwise_flatMap {α β : Type} (R : β → β → Prop) (f : α → List β) (l : List α)
    (h1 : l.Pairwise (fun a b => ∀ x ∈ f a, ∀ y ∈ f b, R x y))
    (h2 : ∀ a ∈ l, (f a).Pairwise R) :
    (l.flatMap f).Pairwise R := by
  induction l with
  | nil => simp
  | cons a rest ih =>
    simp only [List.flatMap_cons]
    rw [List.pairwise_append]
    rcases List.pairwise_cons.mp h1 with ⟨ha, hrest⟩
    refine ⟨h2 a (List.mem_cons_self a rest), ih hrest
      (fun b hb => h2 b (List.mem_cons_of_mem _ hb)), ?_⟩
    intro x hx y hy
    rcases List.mem_flatMap.mp hy with ⟨b, hb, hyb⟩
    exact ha b hb x hx y hyb

theorem remove_preserves_inv {V : Type} (m : RangeMap V) (s l : Nat)
    (hpos : rmPositive m) (hdis : m.ranges.Pairwise interNone) :
    rmPositive (m.remove s l).1 ∧ (m.remove s l).1.ranges.Pairwise interNone := by
  by_cases hl : 0 < l
  · have hre := remove_ranges_eq m s l hl
    constructor
    · intro q hq
      rw [hre] at hq
      rcases List.mem_flatMap.mp hq with ⟨p, hp, hqp⟩
      exact (specFrag_bounds _ p q hqp).2.2.2 (hpos p hp)
    · rw [hre]
      apply pairwise_flatMap
      · apply hdis.imp
        intro p q hpq x hx y hy
        obtain ⟨hx1, hx2, _, _⟩ := specFrag_bounds _ p x hx
        obtain ⟨hy1, hy2, _, _⟩ := specFrag_bounds _ q y hy
        exact interNone_mono p.1 q.1 x.1 y.1 hpq hx1 hx2 hy1 hy2
      · intro p _
        exact specFrag_pairwise _ p
  · have hl2 : l ≤ 0 := by omega
    have : (m.remove s l).1 = m := by simp [RangeMap.remove, hl2]
    rw [this]
    exact ⟨hpos, hdis⟩

theorem add_preserves_inv {V : Type} (m : RangeMap V) (s l : Nat) (v : V)
    (hpos : rmPositive m) (hdis : m.ranges.Pairwise interNone)
    (hg : l = 0 ∨ rangesDisjointB (Range.new s l) m = true) :
    rmPositive (m.add s l v) ∧ (m.add s l v).ranges.Pairwise interNone := by
  rcases hg with hg | hg
  · subst hg
    have : m.add s 0 v = m := by simp [RangeMap.add]
    rw [this]
    exact ⟨hpos, hdis⟩
  · by_cases hl : l = 0
    · subst hl
      have : m.add s 0 v = m := by simp [RangeMap.add]
      rw [this]
      exact ⟨hpos, hdis⟩
    · have hl2 : ¬ l ≤ 0 := by omega
      have hadd : (m.add s l v).ranges = m.ranges ++ [(Range.new s l, v)] := by
        simp [RangeMap.add, hl2]
      constructor
      · intro q hq
        rw [hadd] at hq
        rcases List.mem_append.mp hq with hq | hq
        · exact hpos q hq
        · simp at hq
          subst hq
          simp [Range.new, Range.size]
          omega
      · rw [hadd, List.pairwise_append]
        refine ⟨hdis, by simp, ?_⟩
        intro x hx y hy
        simp at hy
        subst hy
        have := (List.all_eq_true.mp hg) x hx
        simp only [Option.isNone_iff_eq_none] at this
        exact this

theorem rm_disjoint_run {V : Type} (ops : List (RMOp V)) : ∀ m : RangeMap V,
    rmPositive m → m.ranges.Pairwise interNone → noOverlapAddsB m ops = true →
    rmPositive (runRM m ops) ∧ (runRM m ops).ranges.Pairwise interNone := by
  induction ops with
  | nil =>
    intro m h1 h2 _
    exact ⟨h1, h2⟩
  | cons op rest ih =>
    intro m h1 h2 hok
    match op with
    | RMOp.add s l v =>
      simp only [noOverlapAddsB, Bool.and_eq_true, Bool.or_eq_true,
        decide_eq_true_eq] at hok
      have step := add_preserves_inv m s l v h1 h2 hok.1
      have hrw : runRM m (RMOp.add s l v :: rest) = runRM (m.add s l v) rest := by
        simp [runRM, runRMOut]
      rw [hrw]
      exact ih _ step.1 step.2 hok.2
    | RMOp.rem s l =>
      simp only [noOverlapAddsB] at hok
      have step := remove_preserves_inv m s l h1 h2
      have hrw : runRM m (RMOp.rem s l :: rest) = runRM (m.remove s l).1 rest := by
        simp [runRM, runRMOut]
      rw [hrw]
      exact ih _ step.1 step.2 hok

/-- C6 (counterexample): add never checks overlap, so two overlapping adds
reach a state whose stored intervals overlap. -/
theorem rangemap_disjoint_counterexample :
    ¬ ((runRM RangeMap.new
        [RMOp.add 0 2 (0 : Nat), RMOp.add 1 2 0]).ranges.Pairwise interNone) := by
  decide

/-- C6 (amended): in every state reachable from the empty map by a sequence
whose adds never overlap the ranges stored at the time of the add, no two
stored intervals overlap, and every stored interval has positive length
(the positivity part needs no hypothesis on the adds). -/
theorem rangemap_disjoint_amended {V : Type} (ops : List (RMOp V))
    (h : noOverlapAddsB RangeMap.new ops = true) :
    (runRM RangeMap.new ops).ranges.Pairwise interNone
    ∧ rmPositive (runRM RangeMap.new ops) := by
  have h2 := rm_disjoint_run ops RangeMap.new
    (by intro p hp; simp [RangeMap.new] at hp) (by simp [RangeMap.new]) h
  exact ⟨h2.2, h2.1⟩

/-- Witness for the amended C6: an add of two bytes at 0 followed by a
removal of the middle byte leaves disjoint positive intervals. -/
theorem rangemap_disjoint_amended_witness :
    noOverlapAddsB RangeMap.new [RMOp.add 0 2 (0 : Nat), RMOp.rem 1 1] = true
    ∧ (runRM RangeMap.new [RMOp.add 0 2 (0 : Nat), RMOp.rem 1 1]).ranges.Pairwise interNone
    ∧ rmPositive (runRM RangeMap.new [RMOp.add 0 2 (0 : Nat), RMOp.rem 1 1]) :=
  ⟨by decide, (rangemap_disjoint_amended _ (by decide)).1,
    (rangemap_disjoint_amended _ (by decide)).2⟩

/-! Equivalence of the range map with the per-byte reference model. -/

/-- C5 (counterexample): two non-overlapping but adjacent equal-valued adds
are materialized by the interval-list map as two entries, while the
per-byte reference model coalesces them into one run, so the as_hashmap
views differ even though every add was non-overlapping at the time. -/
theorem rangemap_equivalence_counterexample :
    noOverlapAddsB RangeMap.new [RMOp.add 0 1 (0 : Nat), RMOp.add 1 1 0] = true
    ∧ (runRMOut RangeMap.new [RMOp.add 0 1 (0 : Nat), RMOp.add 1 1 0]).1.as_hashmap
        = [(0, (1, 0)), (1, (1, 0))]
    ∧ (runStOut StupidRangeMap.new [RMOp.add 0 1 (0 : Nat), RMOp.add 1 1 0]).1.as_hashmap
        = [(0, (2, 0))]
    ∧ ¬ ((runRMOut RangeMap.new [RMOp.add 0 1 (0 : Nat), RMOp.add 1 1 0]).1.as_hashmap).Perm
        ((runStOut StupidRangeMap.new [RMOp.add 0 1 (0 : Nat), RMOp.add 1 1 0]).1.as_hashmap) := by
  refine ⟨by decide, by decide, by decide, ?_⟩
  decide

theorem mem_stInsert {V : Type} (k : Nat) (v : V) (l : List (Nat × V)) (x : Nat × V)
    (hx : x ∈ stInsert k v l) : x = (k, v) ∨ x ∈ l := by
  induction l with
  | nil => simp [stInsert] at hx; simp [hx]
  | cons p rest ih =>
    obtain ⟨k2, v2⟩ := p
    by_cases h1 : k < k2
    · simp [stInsert, h1] at hx
      rcases hx with hx | hx | hx
      · left; simp [hx]
      · right; simp [hx]
      · right; simp [hx]
    · by_cases h2 : k = k2
      · simp [stInsert, h1, h2] at hx
        rcases hx with hx | hx
        · left; simp [hx, h2]
        · right; simp [hx]
      · simp [stInsert, h1, h2] at hx
        rcases hx with hx | hx
        · right; simp [hx]
        · rcases ih hx with hx2 | hx2
          · left; exact hx2
          · right; simp [hx2]

theorem stInsert_sorted {V : Type} (k : Nat) (v : V) (l : List (Nat × V))
    (h : stSortedLt l) : stSortedLt (stInsert k v l) := by
  induction l with
  | nil => simp [stInsert, stSortedLt]
  | cons p rest ih =>
    obtain ⟨k2, v2⟩ := p
    rcases List.pairwise_cons.mp h with ⟨hhead, htail⟩
    by_cases h1 : k < k2
    · unfold stSortedLt
      simp only [stInsert, h1, if_pos]
      rw [List.pairwise_cons]
      constructor
      · intro x hx
        rcases List.mem_cons.mp hx with hx | hx
        · subst hx; exact h1
        · exact Nat.lt_trans h1 (hhead x hx)
      · exact h
    · by_cases h2 : k = k2
      · subst h2
        have he : stInsert k v ((k, v2) :: rest) = (k, v) :: rest := by
          simp [stInsert, h1]
        unfold stSortedLt
        rw [he, List.pairwise_cons]
        exact ⟨hhead, htail⟩
      · have he : stInsert k v ((k2, v2) :: rest) = (k2, v2) :: stInsert k v rest := by
          simp [stInsert, h1, h2]
        unfold stSortedLt
        rw [he, List.pairwise_cons]
        constructor
        · intro x hx
          rcases mem_stInsert k v rest x hx with hx2 | hx2
          · subst hx2; omega
          · exact hhead x hx2
        · exact ih htail

theorem stInsert_lookup {V : Type} (k : Nat) (v : V) (l : List (Nat × V)) (a : Nat) :
    alLookup a (stInsert k v l) = if a = k then some v else alLookup a l := by
  induction l with
  | nil => simp [stInsert, alLookup]
  | cons p rest ih =>
    obtain ⟨k2, v2⟩ := p
    by_cases h1 : k < k2
    · by_cases h2 : a = k <;> simp [stInsert, alLookup, h1, h2]
    · by_cases h2 : k = k2
      · subst h2
        by_cases h3 : a = k <;> simp [stInsert, alLookup, h1, h3]
      · by_cases h3 : a = k2
        · have h4 : ¬ a = k := by omega
          have h5 : ¬ k2 = k := by omega
          simp [stInsert, alLookup, h1, h2, h3, h4, h5]
        · simp [stInsert, alLookup, h1, h2, h3, ih]

theorem stAddLoop_sorted {V : Type} (v : V) (n : Nat) :
    ∀ start : Nat, ∀ l : List (Nat × V), stSortedLt l → stSortedLt (stAddLoop start v n l) := by
  induction n with
  | zero => intro start l h; simpa [stAddLoop] using h
  | succ n ih =>
    intro start l h
    simp only [stAddLoop]
    exact ih (start + 1) _ (stInsert_sorted start v l h)

theorem stAddLoop_lookup {V : Type} (v : V) (n : Nat) :
    ∀ start a : Nat, ∀ l : List (Nat × V),
    alLookup a (stAddLoop start v n l)
      = if start ≤ a ∧ a < start + n then some v else alLookup a l := by
  induction n with
  | zero =>
    intro start a l
    have h : ¬ (start ≤ a ∧ a < start) := by omega
    simp [stAddLoop, h]
  | succ n ih =>
    intro start a l
    simp only [stAddLoop]
    rw [ih (start + 1) a (stInsert start v l), stInsert_lookup]
    by_cases h1 : start + 1 ≤ a ∧ a < start + 1 + n
    · have h2 : start ≤ a ∧ a < start + (n + 1) := by omega
      simp [h1, h2]
    · by_cases h2 : a = start
      · have h3 : start ≤ a ∧ a < start + (n + 1) := by omega
        simp [h1, h2, h3]
      · have h3 : ¬ (start ≤ a ∧ a < start + (n + 1)) := by omega
        simp [h1, h2, h3]

theorem alRemove_sublist {κ α : Type} [DecidableEq κ] (k : κ) (l : List (κ × α)) :
    (alRemove k l).2.Sublist l := by
  induction l with
  | nil => simp [alRemove]
  | cons p rest ih =>
    obtain ⟨k2, v2⟩ := p
    by_cases h : k = k2
    · simp [alRemove, h]
    · simp only [alRemove, h, if_neg]
      exact List.Sublist.cons₂ _ ih

theorem alRemove_sorted {V : Type} (k : Nat) (l : List (Nat × V))
    (h : stSortedLt l) : stSortedLt (alRemove k l).2 :=
  h.sublist (alRemove_sublist k l)

theorem lookup_none_of_gt {V : Type} (k : Nat) (rest : List (Nat × V))
    (hhead : ∀ x ∈ rest, k < x.1) : alLookup k rest = none := by
  induction rest with
  | nil => simp [alLookup]
  | cons p rest2 ih =>
    obtain ⟨k2, v2⟩ := p
    have hk2 : k < k2 := by
      have := hhead (k2, v2) (by simp)
      simpa using this
    have hne : ¬ k = k2 := by omega
    simp only [alLookup, hne, if_neg]
    exact ih (fun x hx => hhead x (by simp [hx]))

theorem lookup_none_of_sorted {V : Type} (k : Nat) (v : V) (rest : List (Nat × V))
    (h : stSortedLt ((k, v) :: rest)) : alLookup k rest = none := by
  rcases List.pairwise_cons.mp h with ⟨hhead, _⟩
  exact lookup_none_of_gt k rest (fun x hx => hhead x hx)

theorem alRemove_lookup_sorted {V : Type} (k : Nat) (l : List (Nat × V))
    (h : stSortedLt l) (a : Nat) :
    alLookup a (alRemove k l).2 = if a = k then none else alLookup a l := by
  induction l with
  | nil => simp [alRemove, alLookup]
  | cons p rest ih =>
    obtain ⟨k2, v2⟩ := p
    rcases List.pairwise_cons.mp h with ⟨hhead, htail⟩
    by_cases h1 : k = k2
    · subst h1
      simp only [alRemove, if_pos]
      by_cases h2 : a = k
      · subst h2
        simp [lookup_none_of_sorted a v2 rest h]
      · simp [alLookup, h2]
    · simp only [alRemove, h1, if_neg]
      by_cases h2 : a = k2
      · have h3 : ¬ a = k := by omega
        have h5 : ¬ k2 = k := by omega
        simp [alLookup, h2, h3, h5]
      · simp only [alLookup, h2, if_neg]
        exact ih htail

theorem stRemoveLoop_sorted {V : Type} (n : Nat) :
    ∀ start : Nat, ∀ l : List (Nat × V), stSortedLt l →
    stSortedLt (stRemoveLoop start n l).2 := by
  induction n with
  | zero => intro start l h; simpa [stRemoveLoop] using h
  | succ n ih =>
    intro start l h
    simp only [stRemoveLoop]
    exact ih (start + 1) _ (alRemove_sorted start l h)

theorem stRemoveLoop_lookup {V : Type} (n : Nat) :
    ∀ start a : Nat, ∀ l : List (Nat × V), stSortedLt l →
    alLookup a (stRemoveLoop start n l).2
      = if start ≤ a ∧ a < start + n then none else alLookup a l := by
  induction n with
  | zero =>
    intro start a l _
    have h : ¬ (start ≤ a ∧ a < start) := by omega
    simp [stRemoveLoop, h]
  | succ n ih =>
    intro start a l hs
    simp only [stRemoveLoop]
    rw [ih (start + 1) a _ (alRemove_sorted start l hs),
      alRemove_lookup_sorted start l hs]
    by_cases h1 : start + 1 ≤ a ∧ a < start + 1 + n
    · have h2 : start ≤ a ∧ a < start + (n + 1) := by omega
      simp [h1, h2]
    · by_cases h2 : a = start
      · have h3 : start ≤ a ∧ a < start + (n + 1) := by omega
        simp [h1, h2, h3]
      · have h3 : ¬ (start ≤ a ∧ a < start + (n + 1)) := by omega
        simp [h1, h2, h3]

theorem stRemoveLoop_count {V : Type} (n : Nat) :
    ∀ start : Nat, ∀ l : List (Nat × V), stSortedLt l →
    (stRemoveLoop start n l).1
      = (List.range' start n).countP (fun a => (alLookup a l).isSome) := by
  induction n with
  | zero => intro start l _; simp [stRemoveLoop]
  | succ n ih =>
    intro start l hs
    simp only [stRemoveLoop]
    rw [ih (start + 1) _ (alRemove_sorted start l hs)]
    have hcong : (List.range' (start + 1) n).countP
          (fun a => (alLookup a (alRemove start l).2).isSome)
        = (List.range' (start + 1) n).countP (fun a => (alLookup a l).isSome) := by
      apply List.countP_congr
      intro a ha
      rcases List.mem_range'_1.mp ha with ⟨ha1, _⟩
      have hne : ¬ a = start := by omega
      rw [alRemove_lookup_sorted start l hs a]
      simp [hne]
    rw [hcong]
    have hr : List.range' start (n + 1) = start :: List.range' (start + 1) n := by
      simp [List.range'_succ]
    rw [hr, List.countP_cons]
    rw [alRemove_fst_eq_lookup]
    by_cases h2 : (alLookup start l).isSome <;> simp [h2] <;> omega

theorem interNone_not_both {V : Type} (p q : Range × V) (h : interNone p q) (a : Nat) :
    ¬ ((p.1.start ≤ a ∧ a < p.1.stop) ∧ (q.1.start ≤ a ∧ a < q.1.stop)) := by
  rw [interNone, intersection_none_iff] at h
  omega

theorem find?_contains_none_iff {V : Type} (l : List (Range × V)) (a : Nat) :
    l.find? (fun p => decide (p.1.start ≤ a ∧ a < p.1.stop)) = none
      ↔ ∀ p ∈ l, ¬ (p.1.start ≤ a ∧ a < p.1.stop) := by
  rw [List.find?_eq_none]
  simp

theorem find?_contains_some_iff {V : Type} (l : List (Range × V))
    (hdis : l.Pairwise interNone) (a : Nat) (v : V) :
    (l.find? (fun p => decide (p.1.start ≤ a ∧ a < p.1.stop))).map Prod.snd = some v
      ↔ ∃ p ∈ l, (p.1.start ≤ a ∧ a < p.1.stop) ∧ p.2 = v := by
  induction l with
  | nil => simp
  | cons q rest ih =>
    rcases List.pairwise_cons.mp hdis with ⟨hq, htail⟩
    by_cases hc : q.1.start ≤ a ∧ a < q.1.stop
    · rw [List.find?_cons_of_pos _ (by simpa using hc)]
      constructor
      · intro hv
        exact ⟨q, by simp, hc, by simpa using hv⟩
      · rintro ⟨p, hp, hpc, hpv⟩
        rcases List.mem_cons.mp hp with hp1 | hp2
        · subst hp1; simpa using hpv
        · exact absurd ⟨hc, hpc⟩ (interNone_not_both q p (hq p hp2) a)
    · rw [List.find?_cons_of_neg _ (by simpa using hc)]
      rw [ih htail]
      constructor
      · rintro ⟨p, hp, h1, h2⟩
        exact ⟨p, by simp [hp], h1, h2⟩
      · rintro ⟨p, hp, h1, h2⟩
        rcases List.mem_cons.mp hp with hp1 | hp2
        · subst hp1; exact absurd h1 hc
        · exact ⟨p, hp2, h1, h2⟩

theorem countP_or_disjoint {α : Type} (l : List α) (f g : α → Bool)
    (h : ∀ a ∈ l, ¬ (f a = true ∧ g a = true)) :
    l.countP (fun a => f a || g a) = l.countP f + l.countP g := by
  induction l with
  | nil => simp
  | cons x rest ih =>
    rw [List.countP_cons, List.countP_cons, List.countP_cons,
      ih (fun a ha => h a (by simp [ha]))]
    have hx := h x (by simp)
    have hx2 : (if (f x || g x) = true then 1 else 0)
        = (if f x = true then 1 else 0) + (if g x = true then 1 else 0) := by
      cases hf : f x <;> cases hg : g x
      · simp
      · simp
      · simp
      · exact absurd ⟨hf, hg⟩ hx
    omega

theorem interSize_eq (r w : Range) :
    interSize r w = min r.stop w.stop - max r.start w.start := by
  unfold interSize Range.intersection
  by_cases h : min r.stop w.stop ≤ max r.start w.start
  · simp [h]
  · simp [h, Range.size]

theorem countP_range'_contains (r : Range) (n : Nat) :
    ∀ s : Nat, (List.range' s n).countP (fun a => decide (r.start ≤ a ∧ a < r.stop))
      = min r.stop (s + n) - max r.start s := by
  induction n with
  | zero => intro s; simp
  | succ n ih =>
    intro s
    have hr : List.range' s (n + 1) = s :: List.range' (s + 1) n := by
      simp [List.range'_succ]
    rw [hr, List.countP_cons, ih (s + 1)]
    by_cases hc : r.start ≤ s ∧ s < r.stop <;> simp [hc] <;> omega

theorem count_bytes_eq_sum {V : Type} (l : List (Range × V))
    (hdis : l.Pairwise interNone) (st n : Nat) :
    (List.range' st n).countP
        (fun a => (l.find? (fun p => decide (p.1.start ≤ a ∧ a < p.1.stop))).isSome)
      = (l.map (fun p => interSize p.1 (Range.new st n))).sum := by
  induction l with
  | nil => simp
  | cons q rest ih =>
    rcases List.pairwise_cons.mp hdis with ⟨hq, htail⟩
    simp only [List.map_cons, List.sum_cons]
    rw [← ih htail]
    have hsplit : ∀ a, (((q :: rest).find?
          (fun p => decide (p.1.start ≤ a ∧ a < p.1.stop))).isSome : Bool)
        = (decide (q.1.start ≤ a ∧ a < q.1.stop)
            || (rest.find? (fun p => decide (p.1.start ≤ a ∧ a < p.1.stop))).isSome) := by
      intro a
      by_cases hc : q.1.start ≤ a ∧ a < q.1.stop
      · rw [List.find?_cons_of_pos _ (by simpa using hc)]
        simp [hc]
      · rw [List.find?_cons_of_neg _ (by simpa using hc)]
        simp [hc]
    rw [List.countP_congr (fun a _ => by rw [hsplit a])]
    rw [countP_or_disjoint]
    · have hcount := countP_range'_contains q.1 n st
      have hsize : interSize q.1 (Range.new st n)
          = min q.1.stop (st + n) - max q.1.start st := by
        rw [interSize_eq]
        rfl
      omega
    · intro a _
      rintro ⟨h1, h2⟩
      rcases List.find?_isSome.mp h2 with ⟨p, hp, hpc⟩
      have hpc2 : p.1.start ≤ a ∧ a < p.1.stop := by simpa using hpc
      exact interNone_not_both q p (hq p hp) a ⟨by simpa using h1, hpc2⟩

theorem rmByteAt_add {V : Type} (m : RangeMap V) (st l : Nat) (v : V) (hl : 0 < l)
    (hsep : ∀ p ∈ m.ranges, sepFrom (Range.new st l) v p) (a : Nat) :
    rmByteAt (m.add st l v) a
      = if st ≤ a ∧ a < st + l then some v else rmByteAt m a := by
  have hl2 : ¬ l ≤ 0 := by omega
  have hranges : (m.add st l v).ranges = m.ranges ++ [(Range.new st l, v)] := by
    simp [RangeMap.add, hl2]
  unfold rmByteAt
  rw [hranges, List.find?_append]
  by_cases hin : st ≤ a ∧ a < st + l
  · have hnone : m.ranges.find? (fun p => decide (p.1.start ≤ a ∧ a < p.1.stop)) = none := by
      rw [find?_contains_none_iff]
      intro p hp hc
      have hs := hsep p hp
      unfold sepFrom at hs
      simp only [Range.new] at hs
      rcases hs with (hs | hs) | ⟨(hs | hs), _⟩ <;> omega
    have hfind : ([(Range.new st l, v)].find?
        (fun p => decide (p.1.start ≤ a ∧ a < p.1.stop))) = some (Range.new st l, v) := by
      apply List.find?_cons_of_pos
      simp [Range.new]
      omega
    rw [hnone, hfind]
    simp [hin]
  · have hfind : ([(Range.new st l, v)].find?
        (fun p => decide (p.1.start ≤ a ∧ a < p.1.stop))) = none := by
      apply List.find?_cons_of_neg
      simp [Range.new]
      omega
    rw [hfind]
    simp [hin]

theorem specFrag_contains_iff {V : Type} (st l : Nat) (p : Range × V) (a : Nat) :
    (∃ q ∈ specRemoveFragments (Range.new st l) p, q.1.start ≤ a ∧ a < q.1.stop)
      ↔ ((p.1.start ≤ a ∧ a < p.1.stop) ∧ ¬ (st ≤ a ∧ a < st + l)) := by
  unfold specRemoveFragments
  cases h : p.1.intersection (Range.new st l) with
  | none =>
    rw [intersection_none_iff] at h
    simp only [Range.new] at h
    simp only [List.mem_singleton]
    constructor
    · rintro ⟨q, hq, hc⟩
      subst hq
      refine ⟨hc, ?_⟩
      omega
    · rintro ⟨hc, _⟩
      exact ⟨p, rfl, hc⟩
  | some i =>
    obtain ⟨h1, h2, h3⟩ := intersection_some_bounds _ _ _ h
    simp only [Range.new] at h1 h2
    by_cases c1 : p.1.start < i.start <;> by_cases c2 : i.stop < p.1.stop <;>
      simp [c1, c2] <;> omega

theorem rmByteAt_remove {V : Type} (m : RangeMap V) (st l : Nat) (hl : 0 < l)
    (hpos : rmPositive m) (hdis : m.ranges.Pairwise interNone) (a : Nat) :
    rmByteAt (m.remove st l).1 a
      = if st ≤ a ∧ a < st + l then none else rmByteAt m a := by
  have hre := remove_ranges_eq m st l hl
  have hdis2 : (m.remove st l).1.ranges.Pairwise interNone :=
    (remove_preserves_inv m st l hpos hdis).2
  by_cases hin : st ≤ a ∧ a < st + l
  · have hnone : (m.remove st l).1.ranges.find?
        (fun p => decide (p.1.start ≤ a ∧ a < p.1.stop)) = none := by
      rw [find?_contains_none_iff]
      intro q hq hc
      rw [hre] at hq
      rcases List.mem_flatMap.mp hq with ⟨p, hp, hqp⟩
      have hx := (specFrag_contains_iff st l p a).mp ⟨q, hqp, hc⟩
      exact hx.2 hin
    unfold rmByteAt
    rw [hnone]
    simp [hin]
  · cases hb : rmByteAt m a with
    | some v =>
      rcases (find?_contains_some_iff m.ranges hdis a v).mp hb with ⟨p, hp, hpc, hpv⟩
      rcases (specFrag_contains_iff st l p a).mpr ⟨hpc, hin⟩ with ⟨q, hq, hqc⟩
      have hqv : q.2 = p.2 := (specFrag_bounds _ p q hq).2.2.1
      have : rmByteAt (m.remove st l).1 a = some v := by
        apply (find?_contains_some_iff _ hdis2 a v).mpr
        refine ⟨q, ?_, hqc, by rw [hqv, hpv]⟩
        rw [hre]
        exact List.mem_flatMap.mpr ⟨p, hp, hq⟩
      rw [this]
      simp [hin]
    | none =>
      have hall := (find?_contains_none_iff m.ranges a).mp (by
        unfold rmByteAt at hb
        cases hf : m.ranges.find? (fun p => decide (p.1.start ≤ a ∧ a < p.1.stop)) with
        | none => rfl
        | some x => rw [hf] at hb; simp at hb)
      have hnone : (m.remove st l).1.ranges.find?
          (fun p => decide (p.1.start ≤ a ∧ a < p.1.stop)) = none := by
        rw [find?_contains_none_iff]
        intro q hq hc
        rw [hre] at hq
        rcases List.mem_flatMap.mp hq with ⟨p, hp, hqp⟩
        have hx := (specFrag_contains_iff st l p a).mp ⟨q, hqp, hc⟩
        exact hall p hp hx.1
      unfold rmByteAt
      rw [hnone]
      simp [hin]

theorem pairSep_interNone {V : Type} (p q : Range × V) (h : pairSep p q) :
    interNone p q := by
  unfold pairSep sepFrom at h
  rw [interNone, intersection_none_iff]
  rcases h with (h | h) | ⟨(h | h), _⟩ <;> omega

theorem specFrag_pairSep_cross {V : Type} (rmv : Range) (p q x y : Range × V)
    (hps : pairSep p q) (hx : x ∈ specRemoveFragments rmv p)
    (hy : y ∈ specRemoveFragments rmv q) : pairSep x y := by
  obtain ⟨hx1, hx2, hxv, _⟩ := specFrag_bounds rmv p x hx
  obtain ⟨hy1, hy2, hyv, _⟩ := specFrag_bounds rmv q y hy
  unfold pairSep sepFrom at hps ⊢
  rw [hxv, hyv]
  rcases hps with (h | h) | ⟨(h | h), hne⟩
  · left; left; omega
  · left; right; omega
  · by_cases hlt : x.1.stop < y.1.start
    · left; left; exact hlt
    · by_cases hlt2 : y.1.stop < x.1.start
      · left; right; exact hlt2
      · right
        refine ⟨?_, hne⟩
        left
        omega
  · by_cases hlt : x.1.stop < y.1.start
    · left; left; exact hlt
    · by_cases hlt2 : y.1.stop < x.1.start
      · left; right; exact hlt2
      · right
        refine ⟨?_, hne⟩
        right
        omega

theorem specFrag_pairSep_within {V : Type} (rmv : Range) (p : Range × V) :
    (specRemoveFragments rmv p).Pairwise pairSep := by
  unfold specRemoveFragments
  cases h : p.1.intersection rmv with
  | none => simp
  | some i =>
    obtain ⟨h1, h2, h3⟩ := intersection_some_bounds _ _ _ h
    by_cases c1 : p.1.start < i.start <;> by_cases c2 : i.stop < p.1.stop <;>
      simp [c1, c2, pairSep, sepFrom]
    omega

theorem add_step {V : Type} [DecidableEq V] (m : RangeMap V) (s : StupidRangeMap V)
    (st l : Nat) (v : V) (inv : rmStInv m s) (hl : 0 < l)
    (hsep : ∀ p ∈ m.ranges, sepFrom (Range.new st l) v p) :
    rmStInv (m.add st l v) (s.add st l v) := by
  obtain ⟨hpos, hps, hsort, hmatch⟩ := inv
  have hl2 : ¬ l ≤ 0 := by omega
  have hranges : (m.add st l v).ranges = m.ranges ++ [(Range.new st l, v)] := by
    simp [RangeMap.add, hl2]
  refine ⟨?_, ?_, ?_, ?_⟩
  · intro q hq
    rw [hranges] at hq
    rcases List.mem_append.mp hq with hq | hq
    · exact hpos q hq
    · simp at hq
      subst hq
      simp [Range.new, Range.size]
      omega
  · rw [hranges, List.pairwise_append]
    refine ⟨hps, by simp, ?_⟩
    intro x hx y hy
    simp at hy
    subst hy
    exact hsep x hx
  · exact stAddLoop_sorted v l st s.items hsort
  · intro a
    show alLookup a (stAddLoop st v l s.items) = _
    rw [stAddLoop_lookup v l st a s.items, rmByteAt_add m st l v hl hsep a]
    by_cases hin : st ≤ a ∧ a < st + l <;> simp [hin, hmatch a]

theorem rem_step {V : Type} [DecidableEq V] (m : RangeMap V) (s : StupidRangeMap V)
    (st l : Nat) (inv : rmStInv m s) (hl : 0 < l) :
    rmStInv (m.remove st l).1 (s.remove st l).1
    ∧ (m.remove st l).2 = (s.remove st l).2 := by
  obtain ⟨hpos, hps, hsort, hmatch⟩ := inv
  have hdis : m.ranges.Pairwise interNone :=
    hps.imp (fun h => pairSep_interNone _ _ h)
  constructor
  · refine ⟨?_, ?_, ?_, ?_⟩
    · exact (remove_preserves_inv m st l hpos hdis).1
    · rw [remove_ranges_eq m st l hl]
      apply pairwise_flatMap
      · exact hps.imp (fun h x hx y hy => specFrag_pairSep_cross _ _ _ x y h hx hy)
      · intro p _
        exact specFrag_pairSep_within _ p
    · show stSortedLt (stRemoveLoop st l s.items).2
      exact stRemoveLoop_sorted l st s.items hsort
    · intro a
      show alLookup a (stRemoveLoop st l s.items).2 = _
      rw [stRemoveLoop_lookup l st a s.items hsort,
        rmByteAt_remove m st l hl hpos hdis a]
      by_cases hin : st ≤ a ∧ a < st + l <;> simp [hin, hmatch a]
  · rw [remove_count_eq m st l hl]
    show _ = (stRemoveLoop st l s.items).1
    rw [stRemoveLoop_count l st s.items hsort]
    have hc : ∀ a, ((alLookup a s.items).isSome : Bool)
        = ((m.ranges.find? (fun p => decide (p.1.start ≤ a ∧ a < p.1.stop))).isSome) := by
      intro a
      rw [hmatch a]
      unfold rmByteAt
      simp
    rw [List.countP_congr (fun a _ => by rw [hc a])]
    exact (count_bytes_eq_sum m.ranges hdis st l).symm

theorem equiv_run {V : Type} [DecidableEq V] (ops : List (RMOp V)) :
    ∀ (m : RangeMap V) (s : StupidRangeMap V), rmStInv m s → sepAddsB m ops = true →
    rmStInv (runRMOut m ops).1 (runStOut s ops).1
    ∧ (runRMOut m ops).2 = (runStOut s ops).2 := by
  induction ops with
  | nil =>
    intro m s inv _
    exact ⟨inv, rfl⟩
  | cons op rest ih =>
    intro m s inv hok
    match op with
    | RMOp.add st l v =>
      simp only [sepAddsB, Bool.and_eq_true, decide_eq_true_eq,
        List.all_eq_true] at hok
      obtain ⟨⟨hl, hsep⟩, hrest⟩ := hok
      have step := add_step m s st l v inv hl hsep
      exact ih _ _ step hrest
    | RMOp.rem st l =>
      simp only [sepAddsB, Bool.and_eq_true, decide_eq_true_eq] at hok
      obtain ⟨hl, hrest⟩ := hok
      have step := rem_step m s st l inv hl
      have h3 := ih _ _ step.1 hrest
      constructor
      · simpa [runRMOut, runStOut] using h3.1
      · simp only [runRMOut, runStOut]
        rw [step.2, h3.2]

theorem pairSep_symm {V : Type} (p q : Range × V) (h : pairSep p q) : pairSep q p := by
  unfold pairSep sepFrom at h ⊢
  rcases h with (h | h) | ⟨(h | h), hne⟩
  · exact Or.inl (Or.inr h)
  · exact Or.inl (Or.inl h)
  · exact Or.inr ⟨Or.inr h, fun he => hne he.symm⟩
  · exact Or.inr ⟨Or.inl h, fun he => hne he.symm⟩

theorem mem_of_alLookup_some {κ α : Type} [DecidableEq κ] (k : κ) (v : α)
    (l : List (κ × α)) (h : alLookup k l = some v) : (k, v) ∈ l := by
  induction l with
  | nil => simp [alLookup] at h
  | cons p rest ih =>
    obtain ⟨k2, v2⟩ := p
    by_cases h2 : k = k2
    · subst h2
      simp [alLookup] at h
      simp [h]
    · simp [alLookup, h2] at h
      simp [ih h]

theorem sorted_key_le {V : Type} (k2 : Nat) (v2 : V) (rest2 : List (Nat × V))
    (hs : stSortedLt ((k2, v2) :: rest2)) (a : Nat) (v : V)
    (h : alLookup a ((k2, v2) :: rest2) = some v) : k2 ≤ a := by
  have hmem := mem_of_alLookup_some a v _ h
  rcases List.mem_cons.mp hmem with hm | hm
  · have : a = k2 := by
      have := congrArg Prod.fst hm
      simpa using this
    omega
  · rcases List.pairwise_cons.mp hs with ⟨hhead, _⟩
    have := hhead (a, v) hm
    simp at this
    omega

theorem sorted_lookup_ext {V : Type} : ∀ (l1 l2 : List (Nat × V)),
    stSortedLt l1 → stSortedLt l2 → (∀ a, alLookup a l1 = alLookup a l2) → l1 = l2 := by
  intro l1
  induction l1 with
  | nil =>
    intro l2 _ _ hl
    cases l2 with
    | nil => rfl
    | cons q rest2 =>
      obtain ⟨k2, v2⟩ := q
      have h2 := hl k2
      simp [alLookup] at h2
  | cons p rest1 ih =>
    intro l2 h1 h2 hl
    cases l2 with
    | nil =>
      obtain ⟨k1, v1⟩ := p
      have h3 := hl k1
      simp [alLookup] at h3
    | cons q rest2 =>
      obtain ⟨k1, v1⟩ := p
      obtain ⟨k2, v2⟩ := q
      have e1 : alLookup k1 ((k1, v1) :: rest1) = some v1 := by simp [alLookup]
      have e2 : alLookup k2 ((k2, v2) :: rest2) = some v2 := by simp [alLookup]
      have e3 : alLookup k1 ((k2, v2) :: rest2) = some v1 := by rw [← hl k1]; exact e1
      have e4 : alLookup k2 ((k1, v1) :: rest1) = some v2 := by rw [hl k2]; exact e2
      have hk1 : k2 ≤ k1 := sorted_key_le k2 v2 rest2 h2 k1 v1 e3
      have hk2 : k1 ≤ k2 := sorted_key_le k1 v1 rest1 h1 k2 v2 e4
      have hk : k1 = k2 := by omega
      subst hk
      have hv : v1 = v2 := by
        simp [alLookup] at e3
        exact e3.symm
      subst hv
      have htail : rest1 = rest2 := by
        apply ih rest2 (List.Pairwise.of_cons h1) (List.Pairwise.of_cons h2)
        intro a
        by_cases ha : a = k1
        · subst ha
          rw [lookup_none_of_sorted a v1 rest1 h1, lookup_none_of_sorted a v1 rest2 h2]
        · have h5 := hl a
          simpa [alLookup, ha] using h5
      rw [htail]

theorem lookup_map_range' {V : Type} (v : V) (a : Nat) (n : Nat) :
    ∀ s : Nat, alLookup a ((List.range' s n).map (fun x => (x, v)))
      = if s ≤ a ∧ a < s + n then some v else none := by
  induction n with
  | zero =>
    intro s
    have h : ¬ (s ≤ a ∧ a < s) := by omega
    simp [alLookup, h]
  | succ n ih =>
    intro s
    have hr : List.range' s (n + 1) = s :: List.range' (s + 1) n := by
      simp [List.range'_succ]
    rw [hr]
    simp only [List.map_cons]
    by_cases ha : a = s
    · subst ha
      have h : a ≤ a ∧ a < a + (n + 1) := by omega
      simp [alLookup, h]
    · have hstep : alLookup a ((s, v) :: (List.range' (s + 1) n).map (fun x => (x, v)))
          = alLookup a ((List.range' (s + 1) n).map (fun x => (x, v))) := by
        simp [alLookup, ha]
      rw [hstep, ih (s + 1)]
      by_cases h1 : s + 1 ≤ a ∧ a < s + 1 + n
      · have h2 : s ≤ a ∧ a < s + (n + 1) := by omega
        simp [h1, h2]
      · have h2 : ¬ (s ≤ a ∧ a < s + (n + 1)) := by omega
        simp [h1, h2]

theorem lookup_blockOf {V : Type} (p : Range × V) (a : Nat) :
    alLookup a (blockOf p)
      = if p.1.start ≤ a ∧ a < p.1.stop then some p.2 else none := by
  unfold blockOf
  rw [lookup_map_range']
  by_cases h1 : p.1.start ≤ a ∧ a < p.1.start + p.1.size
  · have h2 : p.1.start ≤ a ∧ a < p.1.stop := by
      unfold Range.size at h1
      omega
    simp [h1, h2]
  · have h2 : ¬ (p.1.start ≤ a ∧ a < p.1.stop) := by
      unfold Range.size at h1
      omega
    simp [h1, h2]

theorem alLookup_append {κ α : Type} [DecidableEq κ] (k : κ) (l1 l2 : List (κ × α)) :
    alLookup k (l1 ++ l2)
      = match alLookup k l1 with
        | some v => some v
        | none => alLookup k l2 := by
  induction l1 with
  | nil => simp [alLookup]
  | cons p rest ih =>
    obtain ⟨k2, v2⟩ := p
    by_cases h : k = k2 <;> simp [alLookup, h, ih]

theorem blocks_lookup {V : Type} (l : List (Range × V)) (a : Nat) :
    alLookup a (l.flatMap blockOf)
      = (l.find? (fun p => decide (p.1.start ≤ a ∧ a < p.1.stop))).map Prod.snd := by
  induction l with
  | nil => simp [alLookup]
  | cons p rest ih =>
    simp only [List.flatMap_cons]
    rw [alLookup_append, lookup_blockOf]
    by_cases hc : p.1.start ≤ a ∧ a < p.1.stop
    · rw [List.find?_cons_of_pos _ (by simpa using hc)]
      simp [hc]
    · rw [List.find?_cons_of_neg _ (by simpa using hc)]
      simp [hc, ih]

theorem sorted_sep_chain {V : Type} (l : List (Range × V))
    (hpos : ∀ p ∈ l, 0 < p.1.size) (hps : l.Pairwise pairSep)
    (hsorted : l.Pairwise leStart) :
    l.Pairwise (fun p q => p.1.stop ≤ q.1.start ∧ (p.1.stop = q.1.start → p.2 ≠ q.2)) := by
  have hand := hsorted.and hps
  apply hand.imp_of_mem
  intro a b ha hb hab
  obtain ⟨hle, hsep⟩ := hab
  have hpa : a.1.start < a.1.stop := by
    have := hpos a ha
    unfold Range.size at this
    omega
  have hpb : b.1.start < b.1.stop := by
    have := hpos b hb
    unfold Range.size at this
    omega
  unfold leStart at hle
  unfold pairSep sepFrom at hsep
  rcases hsep with (h | h) | ⟨(h | h), hne⟩
  · exact ⟨by omega, fun he => absurd he (by omega)⟩
  · exact absurd h (by omega)
  · exact ⟨by omega, fun _ => hne⟩
  · exact absurd h (by omega)

theorem blocks_sorted {V : Type} (l : List (Range × V))
    (hpos : ∀ p ∈ l, 0 < p.1.size)
    (hchain : l.Pairwise (fun p q => p.1.stop ≤ q.1.start ∧ (p.1.stop = q.1.start → p.2 ≠ q.2))) :
    stSortedLt (l.flatMap blockOf) := by
  unfold stSortedLt
  apply pairwise_flatMap
  · apply hchain.imp_of_mem
    intro p q hp hq hpq x hx y hy
    obtain ⟨hle2, _⟩ := hpq
    obtain ⟨a, ha, hax⟩ := List.mem_map.mp hx
    obtain ⟨b, hb, hby⟩ := List.mem_map.mp hy
    rcases List.mem_range'_1.mp ha with ⟨ha1, ha2⟩
    rcases List.mem_range'_1.mp hb with ⟨hb1, hb2⟩
    have hps : 0 < p.1.size := hpos p hp
    have hx1 : x.1 = a := by rw [← hax]
    have hy1 : y.1 = b := by rw [← hby]
    have hsz : p.1.start + p.1.size = p.1.stop := by
      unfold Range.size at hps ⊢
      omega
    rw [hx1, hy1]
    omega
  · intro p _
    exact List.Pairwise.map (fun a => (a, p.2)) (fun a b hab => hab)
      (List.pairwise_lt_range' p.1.start p.1.size)

theorem runsGo_consume {V : Type} [DecidableEq V] (v : V) (j : Nat) :
    ∀ (st len last : Nat) (rest : List (Nat × V)),
    runsGo st len v last (((List.range' (last + 1) j).map (fun a => (a, v))) ++ rest)
      = runsGo st (len + j) v (last + j) rest := by
  induction j with
  | zero =>
    intro st len last rest
    simp
  | succ j ih =>
    intro st len last rest
    have hr : List.range' (last + 1) (j + 1) = (last + 1) :: List.range' (last + 1 + 1) j := by
      simp [List.range'_succ]
    rw [hr]
    simp only [List.map_cons, List.cons_append]
    have hstep : runsGo st len v last ((last + 1, v)
          :: (((List.range' (last + 1 + 1) j).map (fun a => (a, v))) ++ rest))
        = runsGo st (len + 1) v (last + 1)
            (((List.range' (last + 1 + 1) j).map (fun a => (a, v))) ++ rest) := by
      simp [runsGo]
    rw [hstep, ih st (len + 1) (last + 1) rest]
    have e1 : len + 1 + j = len + (j + 1) := by omega
    have e2 : last + 1 + j = last + (j + 1) := by omega
    rw [e1, e2]

theorem runs_block_cons {V : Type} [DecidableEq V] (p : Range × V) (rest : List (Nat × V))
    (hpos : 0 < p.1.size)
    (hbound : ∀ (k : Nat) (w : V) (rest2 : List (Nat × V)), rest = (k, w) :: rest2 →
      (p.1.stop ≤ k ∧ (k = p.1.stop → w ≠ p.2))) :
    runs (blockOf p ++ rest) = (p.1.start, (p.1.size, p.2)) :: runs rest := by
  obtain ⟨n, hn⟩ : ∃ n, p.1.size = n + 1 := ⟨p.1.size - 1, by omega⟩
  have hstop : p.1.start + n + 1 = p.1.stop := by
    unfold Range.size at hn hpos
    omega
  have hb : blockOf p
      = (p.1.start, p.2) :: (List.range' (p.1.start + 1) n).map (fun a => (a, p.2)) := by
    unfold blockOf
    rw [hn, show List.range' p.1.start (n + 1)
        = p.1.start :: List.range' (p.1.start + 1) n from by simp [List.range'_succ]]
    simp
  rw [hb]
  simp only [List.cons_append]
  show runsGo p.1.start 1 p.2 p.1.start
      (((List.range' (p.1.start + 1) n).map (fun a => (a, p.2))) ++ rest) = _
  rw [runsGo_consume]
  cases rest with
  | nil =>
    have he : 1 + n = p.1.size := by omega
    rw [he]
    simp [runsGo, runs]
  | cons hd rest2 =>
    obtain ⟨k, w⟩ := hd
    obtain ⟨hk, hkw⟩ := hbound k w rest2 rfl
    have hcond : ¬ (k = (p.1.start + n) + 1 ∧ w = p.2) := by
      rintro ⟨h1, h2⟩
      have hk2 : k = p.1.stop := by omega
      exact (hkw hk2) h2
    rw [show runsGo p.1.start (1 + n) p.2 (p.1.start + n) ((k, w) :: rest2)
        = (p.1.start, (1 + n, p.2)) :: runsGo k 1 w k rest2 from by simp [runsGo, hcond]]
    have he : 1 + n = p.1.size := by omega
    rw [he]
    simp [runs]

theorem runs_blocks {V : Type} [DecidableEq V] : ∀ (l : List (Range × V)),
    (∀ p ∈ l, 0 < p.1.size) →
    l.Pairwise (fun p q => p.1.stop ≤ q.1.start ∧ (p.1.stop = q.1.start → p.2 ≠ q.2)) →
    runs (l.flatMap blockOf) = l.map (fun p => (p.1.start, (p.1.size, p.2))) := by
  intro l
  induction l with
  | nil =>
    intro _ _
    simp [runs]
  | cons p rest ih =>
    intro hpos hchain
    rcases List.pairwise_cons.mp hchain with ⟨hhead, htail⟩
    simp only [List.flatMap_cons, List.map_cons]
    rw [runs_block_cons p _ (hpos p (by simp)) ?_]
    · rw [ih (fun q hq => hpos q (by simp [hq])) htail]
    · intro k w rest2 heq
      cases hr : rest with
      | nil =>
        rw [hr] at heq
        simp at heq
      | cons q rest3 =>
        rw [hr] at heq
        have hq := hhead q (by rw [hr]; simp)
        have hq0 : 0 < q.1.size := hpos q (by rw [hr]; simp)
        obtain ⟨n, hn⟩ : ∃ n, q.1.size = n + 1 := ⟨q.1.size - 1, by omega⟩
        have hb : blockOf q
            = (q.1.start, q.2) :: (List.range' (q.1.start + 1) n).map (fun a => (a, q.2)) := by
          unfold blockOf
          rw [hn, show List.range' q.1.start (n + 1)
              = q.1.start :: List.range' (q.1.start + 1) n from by simp [List.range'_succ]]
          simp
        rw [List.flatMap_cons, hb] at heq
        simp only [List.cons_append] at heq
        injection heq with h1 h2
        rw [Prod.mk.injEq] at h1
        obtain ⟨hk1, hk2⟩ := h1
        subst hk1
        subst hk2
        exact ⟨hq.1, fun he hww => (hq.2 he.symm) hww.symm⟩

theorem blocks_length {V : Type} : ∀ l : List (Range × V),
    (l.flatMap blockOf).length = (l.map (fun p => p.1.size)).sum := by
  intro l
  induction l with
  | nil => simp
  | cons p rest ih =>
    simp only [List.flatMap_cons, List.length_append, List.map_cons, List.sum_cons, ih]
    simp [blockOf]

theorem canonical_items {V : Type} [DecidableEq V] (m : RangeMap V) (s : StupidRangeMap V)
    (inv : rmStInv m s) :
    s.items = (sortByStart m.ranges).flatMap blockOf := by
  obtain ⟨hpos, hps, hsort, hmatch⟩ := inv
  have hperm : (sortByStart m.ranges).Perm m.ranges := List.perm_insertionSort leStart m.ranges
  have hposS : ∀ p ∈ sortByStart m.ranges, 0 < p.1.size :=
    fun p hp => hpos p (hperm.mem_iff.mp hp)
  have hpsS : (sortByStart m.ranges).Pairwise pairSep := by
    rw [hperm.pairwise_iff (fun h => pairSep_symm _ _ h)]
    exact hps
  have hsorted : (sortByStart m.ranges).Pairwise leStart :=
    List.sorted_insertionSort leStart m.ranges
  have hchain := sorted_sep_chain _ hposS hpsS hsorted
  have hdisS : (sortByStart m.ranges).Pairwise interNone :=
    hpsS.imp (fun h => pairSep_interNone _ _ h)
  have hdis : m.ranges.Pairwise interNone :=
    hps.imp (fun h => pairSep_interNone _ _ h)
  apply sorted_lookup_ext s.items _ hsort (blocks_sorted _ hposS hchain)
  intro a
  rw [hmatch a, blocks_lookup]
  cases hb : rmByteAt m a with
  | some v =>
    rcases (find?_contains_some_iff m.ranges hdis a v).mp hb with ⟨p, hp, hc, hv⟩
    exact ((find?_contains_some_iff _ hdisS a v).mpr ⟨p, hperm.mem_iff.mpr hp, hc, hv⟩).symm
  | none =>
    have hall := (find?_contains_none_iff m.ranges a).mp (by
      unfold rmByteAt at hb
      cases hf : m.ranges.find? (fun p => decide (p.1.start ≤ a ∧ a < p.1.stop)) with
      | none => rfl
      | some x =>
        rw [hf] at hb
        simp at hb)
    have hfS : (sortByStart m.ranges).find?
        (fun p => decide (p.1.start ≤ a ∧ a < p.1.stop)) = none := by
      rw [find?_contains_none_iff]
      intro p hp
      exact hall p (hperm.mem_iff.mp hp)
    rw [hfS]
    rfl

theorem inv_final {V : Type} [DecidableEq V] (m : RangeMap V) (s : StupidRangeMap V)
    (inv : rmStInv m s) :
    m.size = s.size ∧ m.as_hashmap.Perm s.as_hashmap := by
  have hcan := canonical_items m s inv
  obtain ⟨hpos, hps, hsort, hmatch⟩ := inv
  have hperm : (sortByStart m.ranges).Perm m.ranges := List.perm_insertionSort leStart m.ranges
  have hposS : ∀ p ∈ sortByStart m.ranges, 0 < p.1.size :=
    fun p hp => hpos p (hperm.mem_iff.mp hp)
  have hpsS : (sortByStart m.ranges).Pairwise pairSep := by
    rw [hperm.pairwise_iff (fun h => pairSep_symm _ _ h)]
    exact hps
  have hsorted : (sortByStart m.ranges).Pairwise leStart :=
    List.sorted_insertionSort leStart m.ranges
  have hchain := sorted_sep_chain _ hposS hpsS hsorted
  constructor
  · show (m.ranges.map (fun p => p.1.size)).sum = s.items.length
    rw [hcan, blocks_length]
    exact (List.Perm.sum_eq (hperm.map (fun p => p.1.size))).symm
  · show (m.ranges.map (fun p => (p.1.start, (p.1.size, p.2)))).Perm (runs s.items)
    rw [hcan, runs_blocks _ hposS hchain]
    exact (hperm.map (fun p => (p.1.start, (p.1.size, p.2)))).symm

/-- C5 (amended): for every sequence of positive-length operations in which
each added range is separated from every range stored at the time of the
add (no overlap, and touching an existing range only with a different
value), the interval-list range map and the per-byte reference model agree
after the run on total size and on the materialized as_hashmap contents (up
to hash-map ordering), and every remove along the way returned the same
removed-byte count in both. -/
theorem rangemap_equivalence_amended {V : Type} [DecidableEq V] (ops : List (RMOp V))
    (h : sepAddsB RangeMap.new ops = true) :
    (runRMOut (RangeMap.new (V := V)) ops).1.size
        = (runStOut (StupidRangeMap.new (V := V)) ops).1.size
    ∧ (runRMOut (RangeMap.new (V := V)) ops).2
        = (runStOut (StupidRangeMap.new (V := V)) ops).2
    ∧ ((runRMOut (RangeMap.new (V := V)) ops).1.as_hashmap).Perm
        ((runStOut (StupidRangeMap.new (V := V)) ops).1.as_hashmap) := by
  have hinv0 : rmStInv (RangeMap.new (V := V)) (StupidRangeMap.new (V := V)) := by
    refine ⟨?_, ?_, ?_, ?_⟩
    · intro p hp
      simp [RangeMap.new] at hp
    · simp [RangeMap.new]
    · simp [StupidRangeMap.new, stSortedLt]
    · intro a
      simp [StupidRangeMap.new, RangeMap.new, alLookup, rmByteAt]
  have hrun := equiv_run ops RangeMap.new StupidRangeMap.new hinv0 h
  have hfin := inv_final _ _ hrun.1
  exact ⟨hfin.1, hrun.2, hfin.2⟩

/-- Witness for the amended C5: add two bytes at 0 with value 5, then
remove two bytes starting at 1; both structures end with one tracked byte
and the remove reported one byte removed in both. -/
theorem rangemap_equivalence_amended_witness :
    sepAddsB RangeMap.new [RMOp.add 0 2 (5 : Nat), RMOp.rem 1 2] = true
    ∧ ((runRMOut (RangeMap.new (V := Nat)) [RMOp.add 0 2 5, RMOp.rem 1 2]).1.size
        = (runStOut (StupidRangeMap.new (V := Nat)) [RMOp.add 0 2 5, RMOp.rem 1 2]).1.size
      ∧ (runRMOut (RangeMap.new (V := Nat)) [RMOp.add 0 2 5, RMOp.rem 1 2]).2
        = (runStOut (StupidRangeMap.new (V := Nat)) [RMOp.add 0 2 5, RMOp.rem 1 2]).2
      ∧ ((runRMOut (RangeMap.new (V := Nat)) [RMOp.add 0 2 5, RMOp.rem 1 2]).1.as_hashmap).Perm
        ((runStOut (StupidRangeMap.new (V := Nat)) [RMOp.add 0 2 5, RMOp.rem 1 2]).1.as_hashmap)) :=
  ⟨by decide, rangemap_equivalence_amended [RMOp.add 0 2 5, RMOp.rem 1 2] (by decide)⟩
